import Mathlib

/-!
Shallow embedding of the retrieval core of the `enterprise-rag` repository
(`src/backend/src/retrieval/`): hybrid retrieval with reciprocal rank fusion
(`hybrid.py`), the BM25 lexical store (`bm25_store.py`), the cross-encoder
reranker (`reranker.py`) and the semantic cache (`cache.py`).

Modelling conventions:
* Python floats are modelled as exact rationals (`ℚ`); the cosine-similarity
  values of the cache, which involve square roots, live in `ℝ`.
* Python dicts are modelled as association lists in insertion order
  (assignment to an existing key keeps its position, a new key is appended),
  matching CPython's ordered-dict semantics.
* Python's stable sorts (`sorted(...)` / `list.sort(...)`, both stable) are
  modelled by a stable insertion sort `sortDesc`.
* External collaborators (embedding provider, vector store, the `rank_bm25`
  scoring library, NLTK tokenization, the cross-encoder model) are taken as
  oracle parameters; their documented contracts (e.g. one score per input)
  appear as hypotheses.
* Exceptions are modelled with `Except Unit`; Redis payloads that can fail to
  decode are modelled by explicit cell types.
-/

/-- One entry of a Python `Dict[str, Any]` metadata mapping; values are kept
as strings, which is all the retrieval core reads out of them. -/
abbrev Metadata := List (String × String)

/-- `SearchResult` dataclass from `hybrid.py`. -/
structure SearchResult where
  content : String
  metadata : Metadata
  score : ℚ
  source : String
deriving DecidableEq

/-- Python `dict.get(key, default)` on an association list. -/
def dictGetD {κ α : Type} [DecidableEq κ] (m : List (κ × α)) (key : κ) (dflt : α) : α :=
  match m with
  | [] => dflt
  | (k, v) :: rest => if k = key then v else dictGetD rest key dflt

/-- Python `dict[key]` read access: `some` value, or `none` (a `KeyError`). -/
def dictGet {κ α : Type} [DecidableEq κ] (m : List (κ × α)) (key : κ) : Option α :=
  match m with
  | [] => none
  | (k, v) :: rest => if k = key then some v else dictGet rest key

/-- Python `dict[key] = v`: overwrite in place when the key exists, append
a new entry otherwise (CPython keeps insertion order). -/
def dictSet {κ α : Type} [DecidableEq κ] (m : List (κ × α)) (key : κ) (v : α) : List (κ × α) :=
  match m with
  | [] => [(key, v)]
  | (k, w) :: rest => if k = key then (key, v) :: rest else (k, w) :: dictSet rest key v

/-- The keys of an association list, in order. -/
def dictKeys {κ α : Type} (m : List (κ × α)) : List κ := m.map Prod.fst

/-- Insert `x` into a descending-sorted list, right before the first element
whose key is at most `f x`; since the sort below feeds elements in from the
right, this puts an element before later-arriving elements of equal key,
which is exactly stability. -/
def insDesc {α : Type} (f : α → ℚ) (x : α) : List α → List α
  | [] => [x]
  | y :: ys => if f x < f y then y :: insDesc f x ys else x :: y :: ys

/-- Stable insertion sort, descending in the key `f`; models Python's stable
`sorted(..., reverse=True)` / `list.sort(..., reverse=True)`. -/
def sortDesc {α : Type} (f : α → ℚ) : List α → List α
  | [] => []
  | x :: xs => insDesc f x (sortDesc f xs)

/-- `HybridRetriever._get_doc_id`: composite identity key
`f"{metadata.get('document_id','')}_{metadata.get('chunk_id','')}"`. -/
def get_doc_id (r : SearchResult) : String :=
  dictGetD r.metadata "document_id" "" ++ "_" ++ dictGetD r.metadata "chunk_id" ""

/-- The first loop of `_reciprocal_rank_fusion` over the vector results:
`doc_map[doc_id] = result; doc_scores[doc_id] = alpha / (k + rank)`,
with `rank` enumerating from 1. -/
def rrfVectorPass (alpha : ℚ) (k : ℕ) :
    List SearchResult → ℕ →
    List (String × SearchResult) × List (String × ℚ) →
    List (String × SearchResult) × List (String × ℚ)
  | [], _, st => st
  | r :: rest, rank, st =>
    rrfVectorPass alpha k rest (rank + 1)
      (dictSet st.1 (get_doc_id r) r,
       dictSet st.2 (get_doc_id r) (alpha / ((k : ℚ) + (rank : ℚ))))

/-- The second loop of `_reciprocal_rank_fusion` over the BM25 results:
`if doc_id not in doc_map: doc_map[doc_id] = result;`
`doc_scores[doc_id] = doc_scores.get(doc_id, 0) + (1 - alpha) / (k + rank)`. -/
def rrfBM25Pass (alpha : ℚ) (k : ℕ) :
    List SearchResult → ℕ →
    List (String × SearchResult) × List (String × ℚ) →
    List (String × SearchResult) × List (String × ℚ)
  | [], _, st => st
  | r :: rest, rank, st =>
    rrfBM25Pass alpha k rest (rank + 1)
      (if (dictGet st.1 (get_doc_id r)).isSome then st.1 else dictSet st.1 (get_doc_id r) r,
       dictSet st.2 (get_doc_id r)
         ((dictGet st.2 (get_doc_id r)).getD 0 + (1 - alpha) / ((k : ℚ) + (rank : ℚ))))

/-- The final loop of `_reciprocal_rank_fusion`: `result = doc_map[doc_id];
result.score = score; result.source = "hybrid"`.  The `none` branch mirrors
the `doc_map[doc_id]` access, which cannot fail because every scored key was
also put into `doc_map`. -/
def rrfRebuild (docMap : List (String × SearchResult)) (p : String × ℚ) : SearchResult :=
  match dictGet docMap p.1 with
  | some r => { r with score := p.2, source := "hybrid" }
  | none => { content := "", metadata := [], score := p.2, source := "hybrid" }

/-- `HybridRetriever._reciprocal_rank_fusion` (default `k = 60` is supplied by
the caller): both passes, then `sorted(doc_scores.items(), key=score,
reverse=True)` and rebuilding the results with the fused score and
`source = "hybrid"`. -/
def reciprocal_rank_fusion (alpha : ℚ) (k : ℕ)
    (vector_results bm25_results : List SearchResult) : List SearchResult :=
  let st1 := rrfVectorPass alpha k vector_results 1 ([], [])
  let st2 := rrfBM25Pass alpha k bm25_results 1 st1
  let sorted_docs := sortDesc Prod.snd st2.2
  sorted_docs.map (rrfRebuild st2.1)

/-- 1-based rank of the first result with identity key `d`, starting the count
at `rank`. -/
def rankOf (d : String) : List SearchResult → ℕ → Option ℕ
  | [], _ => none
  | r :: rest, rank => if get_doc_id r = d then some rank else rankOf d rest (rank + 1)

/-- First result carrying identity key `d`. -/
def findDoc (d : String) : List SearchResult → Option SearchResult
  | [] => none
  | r :: rest => if get_doc_id r = d then some r else findDoc d rest

/-- The reciprocal-rank contribution of one ranking: `w / (k + r)` at 1-based
rank `r` for a document present in the ranking, `0` otherwise. -/
def rrfContrib (w : ℚ) (k : ℕ) (l : List SearchResult) (d : String) : ℚ :=
  match rankOf d l 1 with
  | some rank => w / ((k : ℚ) + (rank : ℚ))
  | none => 0

/-- Vector-ranked result A of the spec's RRF example. -/
def exDocA : SearchResult :=
  ⟨"docA", [("document_id", "A"), ("chunk_id", "0")], 1, "vector"⟩

/-- Vector-ranked result B of the spec's RRF example. -/
def exDocB : SearchResult :=
  ⟨"docB", [("document_id", "B"), ("chunk_id", "0")], 9/10, "vector"⟩

/-- Lexically ranked result with the same identity key as B (different object,
same composite key, so fusion must collapse the two). -/
def exDocBLex : SearchResult :=
  ⟨"docB", [("document_id", "B"), ("chunk_id", "0")], 5, "bm25"⟩

/-- Lexically ranked result C of the spec's RRF example. -/
def exDocC : SearchResult :=
  ⟨"docC", [("document_id", "C"), ("chunk_id", "0")], 4, "bm25"⟩

/-- The per-candidate mutation of `Reranker.rerank`:
`combined_score = 0.7 * float(rerank_score) + 0.3 * doc.score;
doc.score = combined_score; doc.source = "reranked"`. -/
def rerankCombine (p : SearchResult × ℚ) : SearchResult :=
  { p.1 with score := 0.7 * p.2 + 0.3 * p.1.score, source := "reranked" }

/-- `Reranker.rerank` from `reranker.py`.  The external cross-encoder
(`self.model.predict` over the batch of `(query, content)` pairs) is the
oracle `predict`.  The first component is the returned list
(`sorted desc, [:top_k]`); the second component is the state of the input
candidate objects after the call — the Python loop mutates each `doc`'s
`score` and `source` in place before sorting a copy of the references. -/
def rerank (predict : List (String × String) → List ℚ) (query : String)
    (documents : List SearchResult) (top_k : ℕ) :
    List SearchResult × List SearchResult :=
  if documents.isEmpty then ([], documents)
  else
    let pairs := documents.map (fun doc => (query, doc.content))
    let scores := predict pairs
    let reranked_docs := (documents.zip scores).map rerankCombine
    ((sortDesc SearchResult.score reranked_docs).take top_k, reranked_docs)

/-- Ten fused candidates (prior scores 0..9, source `"hybrid"`) for the
rerank-truncation example. -/
def exRerankDocs : List SearchResult :=
  [⟨"c", [], 0, "hybrid"⟩, ⟨"c", [], 1, "hybrid"⟩, ⟨"c", [], 2, "hybrid"⟩,
   ⟨"c", [], 3, "hybrid"⟩, ⟨"c", [], 4, "hybrid"⟩, ⟨"c", [], 5, "hybrid"⟩,
   ⟨"c", [], 6, "hybrid"⟩, ⟨"c", [], 7, "hybrid"⟩, ⟨"c", [], 8, "hybrid"⟩,
   ⟨"c", [], 9, "hybrid"⟩]

/-- A cross-encoder oracle returning raw score 1 for every pair. -/
def exPredict : List (String × String) → List ℚ := fun ps => ps.map (fun _ => 1)

/-- One document's info as stored by `BM25Store.build_index` into
`self.doc_mapping[i]` (content, metadata, document_id, chunk_id; the
`doc.get(..., default)` defaults are applied by the caller of the model). -/
structure DocInfo where
  content : String
  metadata : Metadata
  document_id : String
  chunk_id : String
deriving DecidableEq

/-- Fallback value for the unreachable default of a mapping lookup. -/
def dummyDocInfo : DocInfo := ⟨"", [], "", ""⟩

/-- In-memory state of `BM25Store`: `self.bm25_index` (the tokenized corpus
the external `BM25Okapi` object was built from, or `None`), `self.documents`
and `self.doc_mapping`. -/
structure BM25State where
  bm25_index : Option (List (List String))
  documents : List DocInfo
  doc_mapping : List (ℕ × DocInfo)
deriving DecidableEq

/-- `BM25Store.__init__` state: no index, no documents, empty mapping. -/
def initialBM25State : BM25State := ⟨none, [], []⟩

/-- A serialized Redis value as seen by `_load_from_redis`: missing key
(`None`, falsy), undecodable bytes (`pickle.loads` raises), or a decoded
payload. -/
inductive SnapCell (α : Type) where
  | absent
  | corrupt
  | stored (payload : α)
deriving DecidableEq

/-- The two persisted blobs `"bm25_index"` and `"bm25_documents"`. -/
structure RedisSnap where
  indexCell : SnapCell (List (List String))
  docsCell : SnapCell (List (ℕ × DocInfo))

/-- The `for i, doc in enumerate(documents)` loop of `build_index`, writing
`self.doc_mapping[i] = {...}` starting at index `i` over the prior mapping. -/
def buildMapping : List (ℕ × DocInfo) → ℕ → List DocInfo → List (ℕ × DocInfo)
  | m, _, [] => m
  | m, i, doc :: rest => buildMapping (dictSet m i doc) (i + 1) rest

/-- `BM25Store.build_index`: replaces `self.documents`, tokenizes every
document (`word_tokenize(content.lower())` is the oracle `tokenize`), writes
`doc_mapping[i]` for each position, and builds the external `BM25Okapi`
index over the tokenized corpus (the spec's §8 empty-corpus property reads
the external constructor as total, so the index object is always created). -/
def build_index (tokenize : String → List String) (st : BM25State)
    (documents : List DocInfo) : BM25State :=
  { bm25_index := some (documents.map (fun doc => tokenize doc.content)),
    documents := documents,
    doc_mapping := buildMapping st.doc_mapping 0 documents }

/-- `BM25Store._load_from_redis`: one `try` around both reads; a corrupt
index blob aborts before the mapping is read; a corrupt mapping blob aborts
after `self.bm25_index` has already been assigned (the `except: pass`
keeps whatever partial state was built). -/
def load_from_redis (snap : RedisSnap) (st : BM25State) : BM25State :=
  match snap.indexCell with
  | SnapCell.corrupt => st
  | SnapCell.absent =>
    match snap.docsCell with
    | SnapCell.corrupt => st
    | SnapCell.absent => st
    | SnapCell.stored m => { st with doc_mapping := m }
  | SnapCell.stored c =>
    match snap.docsCell with
    | SnapCell.corrupt => { st with bm25_index := some c }
    | SnapCell.absent => { st with bm25_index := some c }
    | SnapCell.stored m => { st with bm25_index := some c, doc_mapping := m }

/-- The result-building loop of `BM25Store.search`: for each selected index,
documents with non-positive score are skipped; `self.doc_mapping[idx]` is a
plain dict access, so a missing index raises (`Except.error`). -/
def collectResults (mapping : List (ℕ × DocInfo)) (scores : List ℚ) :
    List ℕ → Except Unit (List SearchResult)
  | [] => .ok []
  | idx :: rest =>
    if 0 < scores.getD idx 0 then
      match dictGet mapping idx with
      | none => .error ()
      | some info =>
        match collectResults mapping scores rest with
        | .error e => .error e
        | .ok rs => .ok (⟨info.content, info.metadata, scores.getD idx 0, "bm25"⟩ :: rs)
    else collectResults mapping scores rest

/-- `BM25Store.search`: lazy load when no in-memory index, empty result when
still no index, otherwise score all documents with the external BM25 engine
(`bm25Scores corpus query_tokens`, one score per corpus document), select
`sorted(range(len(scores)), key=scores, reverse=True)[:top_k]` and build
`SearchResult{source="bm25"}` for the strictly positive scores. -/
def bm25_search (bm25Scores : List (List String) → List String → List ℚ)
    (tokenize : String → List String) (snap : RedisSnap) (st : BM25State)
    (query : String) (top_k : ℕ) : Except Unit (List SearchResult) :=
  let st1 := if st.bm25_index.isSome then st else load_from_redis snap st
  match st1.bm25_index with
  | none => .ok []
  | some corpus =>
    let scores := bm25Scores corpus (tokenize query)
    let top_indices := (sortDesc (fun i => scores.getD i 0) (List.range scores.length)).take top_k
    collectResults st1.doc_mapping scores top_indices

/-- Position-tagged list starting at `i`, the shape `buildMapping` produces
over an empty prior mapping. -/
def enumFromN : ℕ → List DocInfo → List (ℕ × DocInfo)
  | _, [] => []
  | i, d :: rest => (i, d) :: enumFromN (i + 1) rest

/-- The "comes strictly earlier in the BM25 selection order" relation:
strictly higher score, or equal score and smaller corpus index. -/
def beatsAt (scores : List ℚ) (i j : ℕ) : Prop :=
  scores.getD j 0 < scores.getD i 0 ∨ (scores.getD i 0 = scores.getD j 0 ∧ i < j)

/-- The score vector `search` obtains for a freshly built index: the external
BM25 engine applied to the tokenized corpus and the tokenized query. -/
def bm25QueryScores (bm25Scores : List (List String) → List String → List ℚ)
    (tokenize : String → List String) (documents : List DocInfo) (query : String) : List ℚ :=
  bm25Scores (documents.map (fun doc => tokenize doc.content)) (tokenize query)

/-- A raw value of the semantic-cache Redis store as `SemanticCache.get`
observes it: falsy read (`if not cached_data: continue`), undecodable bytes
(`json.loads` raises), decoded JSON without an `"embedding"` field
(`data["embedding"]` raises `KeyError`), or a well-formed entry. -/
inductive CacheCell where
  | empty
  | malformed
  | missingEmbedding
  | entry (embedding : List ℚ) (results : List SearchResult)
deriving DecidableEq

/-- `np.dot` on the embedding vectors. -/
def dotQ (a b : List ℚ) : ℚ := ((a.zip b).map (fun p => p.1 * p.2)).sum

/-- Sum of squares; `np.linalg.norm a = sqrt (sumSq a)`. -/
def sumSq (a : List ℚ) : ℚ := (a.map (fun x => x * x)).sum

/-- `np.linalg.norm` (Euclidean). -/
noncomputable def normL2 (a : List ℚ) : ℝ := Real.sqrt ((sumSq a : ℚ) : ℝ)

/-- The cosine similarity computed in `SemanticCache.get`:
`np.dot(q, e) / (np.linalg.norm(q) * np.linalg.norm(e))`, with no guard on a
zero denominator (real division, total in the model). -/
noncomputable def cosineSim (a b : List ℚ) : ℝ :=
  ((dotQ a b : ℚ) : ℝ) / (normL2 a * normL2 b)

/-- The scan loop of `SemanticCache.get`: track `max_similarity` (seed 0.0)
and `best_match_key` (seed `None`), skipping falsy reads, raising on an
undecodable entry or a missing `"embedding"` field, and updating on strict
improvement (`similarity > max_similarity`). -/
noncomputable def cacheScan (q : List ℚ) :
    List (String × CacheCell) → ℝ → Option String → Except Unit (ℝ × Option String)
  | [], maxSim, best => .ok (maxSim, best)
  | (key, cell) :: rest, maxSim, best =>
    match cell with
    | CacheCell.empty => cacheScan q rest maxSim best
    | CacheCell.malformed => .error ()
    | CacheCell.missingEmbedding => .error ()
    | CacheCell.entry emb _ =>
      if maxSim < cosineSim q emb then cacheScan q rest (cosineSim q emb) (some key)
      else cacheScan q rest maxSim best

/-- `SemanticCache.get`: `None` when there are no cache keys; otherwise the
scan, then the `max_similarity >= threshold and best_match_key` gate; on a
hit, the best key is re-fetched and its `"results"` deserialized — every
non-entry outcome of that second fetch would raise, but is unreachable
after a successful scan. -/
noncomputable def cache_get (threshold : ℚ) (q : List ℚ)
    (store : List (String × CacheCell)) : Except Unit (Option (List SearchResult)) :=
  if store.isEmpty then .ok none
  else
    match cacheScan q store 0 none with
    | .error e => .error e
    | .ok (maxSim, best) =>
      if (threshold : ℝ) ≤ maxSim then
        match best with
        | some key =>
          match dictGet store key with
          | some (CacheCell.entry _ results) => .ok (some results)
          | _ => .error ()
        | none => .ok none
      else .ok none

/-- The well-formed entries of the store, in order. -/
def cellEntries : List (String × CacheCell) → List (String × List ℚ × List SearchResult)
  | [] => []
  | (key, CacheCell.entry emb res) :: rest => (key, emb, res) :: cellEntries rest
  | _ :: rest => cellEntries rest

/-- Modelled from the spec's words for `get` (§4.4), as the refinement
target: scan every entry, compute cosine similarity with the query
embedding, take the maximum; if the maximum is at or above the threshold,
return the stored result set of the (first) entry attaining it, otherwise
no match. -/
noncomputable def specCacheLookup (threshold : ℚ) (q : List ℚ)
    (entries : List (String × List ℚ × List SearchResult)) : Option (List SearchResult) :=
  open Classical in
  match (entries.map (fun e => cosineSim q e.2.1)).maximum with
  | none => none
  | some M =>
    if (threshold : ℝ) ≤ M then
      match entries.find? (fun e => decide (cosineSim q e.2.1 = M)) with
      | some e => some e.2.2
      | none => none
    else none

/-- A stored result set for the cache examples. -/
def exCachedResult : SearchResult := ⟨"cached answer", [], 1, "reranked"⟩

/-- The square of the cosine denominator `‖q‖·‖e‖` for every similarity the
`get` scan evaluates, in scan order (the scan stops at the first
undecodable cell): an entry of `0` means the scan performed a division by
zero. -/
def scanDenomSquares (q : List ℚ) : List (String × CacheCell) → List ℚ
  | [] => []
  | (_, cell) :: rest =>
    match cell with
    | CacheCell.empty => scanDenomSquares q rest
    | CacheCell.malformed => []
    | CacheCell.missingEmbedding => []
    | CacheCell.entry emb _ => (sumSq q * sumSq emb) :: scanDenomSquares q rest

/-- Which pipeline stages one `HybridRetriever.retrieve` call executed, and
what (if anything) it wrote to the cache. -/
structure RetrievalTrace where
  vectorQueried : Bool
  lexicalQueried : Bool
  fusionRun : Bool
  rerankRun : Bool
  cacheWritten : Option (List SearchResult)
deriving DecidableEq

/-- The trace of a call that short-circuited at the cache check. -/
def noStageTrace : RetrievalTrace := ⟨false, false, false, false, none⟩

/-- `HybridRetriever.retrieve`: cache check (only with `use_cache`), then —
`if cached_results:` is Python truthiness, so both `None` and an empty
cached list fall through — the vector and BM25 fetches, fusion with the
retriever's `alpha` and `k = 60`, reranking, and the cache write (only with
`use_cache`).  The vector store and the BM25 store are the oracles
`vecSearch`/`lexSearch`; the trace records which stages ran. -/
noncomputable def retrieve
    (vecSearch : String → ℕ → List SearchResult)
    (lexSearch : String → ℕ → List SearchResult)
    (predict : List (String × String) → List ℚ)
    (threshold : ℚ) (qEmb : List ℚ) (cacheStore : List (String × CacheCell))
    (alpha : ℚ) (query : String) (top_k rerank_top_k : ℕ) (use_cache : Bool) :
    Except Unit (List SearchResult × RetrievalTrace) :=
  let pipeline : Except Unit (List SearchResult × RetrievalTrace) :=
    let vector_results := vecSearch query top_k
    let bm25_results := lexSearch query top_k
    let fused_results := reciprocal_rank_fusion alpha 60 vector_results bm25_results
    let reranked_results := (rerank predict query fused_results rerank_top_k).1
    .ok (reranked_results,
      ⟨true, true, true, true, if use_cache then some reranked_results else none⟩)
  if use_cache then
    match cache_get threshold qEmb cacheStore with
    | .error e => .error e
    | .ok cached =>
      match cached with
      | some (r :: rs) => .ok (r :: rs, noStageTrace)
      | some [] => pipeline
      | none => pipeline
  else pipeline

theorem dictGet_dictSet_self {κ α : Type} [DecidableEq κ] (m : List (κ × α)) (key : κ) (v : α) :
    dictGet (dictSet m key v) key = some v := by
  induction m with
  | nil => simp [dictGet, dictSet]
  | cons p rest ih =>
    obtain ⟨k, w⟩ := p
    by_cases h : k = key
    · simp [dictGet, dictSet, h]
    · simp [dictGet, dictSet, h, ih]

theorem dictGet_dictSet_ne {κ α : Type} [DecidableEq κ] (m : List (κ × α)) (key key' : κ)
    (v : α) (h : key ≠ key') : dictGet (dictSet m key v) key' = dictGet m key' := by
  induction m with
  | nil => simp [dictGet, dictSet, h]
  | cons p rest ih =>
    obtain ⟨k, w⟩ := p
    by_cases hk : k = key
    · subst hk
      simp [dictGet, dictSet, h]
    · simp only [dictSet, if_neg hk]
      by_cases hk' : k = key'
      · simp [dictGet, hk']
      · simp [dictGet, hk', ih]

theorem dictKeys_cons {κ α : Type} (p : κ × α) (m : List (κ × α)) :
    dictKeys (p :: m) = p.1 :: dictKeys m := rfl

theorem mem_dictKeys_dictSet {κ α : Type} [DecidableEq κ] (m : List (κ × α)) (key : κ) (v : α)
    (d : κ) : d ∈ dictKeys (dictSet m key v) ↔ d ∈ dictKeys m ∨ d = key := by
  induction m with
  | nil => simp [dictKeys, dictSet, eq_comm]
  | cons p rest ih =>
    obtain ⟨k, w⟩ := p
    by_cases hk : k = key
    · subst hk
      have hset : dictSet ((k, w) :: rest) k v = (k, v) :: rest := by simp [dictSet]
      rw [hset, dictKeys_cons, dictKeys_cons]
      simp only [List.mem_cons]
      tauto
    · simp only [dictSet, if_neg hk, dictKeys_cons, List.mem_cons, ih]
      tauto

theorem dictKeys_dictSet_of_mem {κ α : Type} [DecidableEq κ] (m : List (κ × α)) (key : κ) (v : α)
    (h : key ∈ dictKeys m) : dictKeys (dictSet m key v) = dictKeys m := by
  induction m with
  | nil => simp [dictKeys] at h
  | cons p rest ih =>
    obtain ⟨k, w⟩ := p
    by_cases hk : k = key
    · subst hk
      simp [dictSet, dictKeys_cons]
    · rw [dictKeys_cons, List.mem_cons] at h
      rcases h with h | h
      · exact absurd h.symm hk
      · simp only [dictSet, if_neg hk, dictKeys_cons, ih h]

theorem dictKeys_dictSet_of_not_mem {κ α : Type} [DecidableEq κ] (m : List (κ × α)) (key : κ)
    (v : α) (h : key ∉ dictKeys m) : dictKeys (dictSet m key v) = dictKeys m ++ [key] := by
  induction m with
  | nil => simp [dictKeys, dictSet]
  | cons p rest ih =>
    obtain ⟨k, w⟩ := p
    rw [dictKeys_cons, List.mem_cons] at h
    push_neg at h
    have hk : k ≠ key := fun hkk => h.1 hkk.symm
    simp only [dictSet, if_neg hk, dictKeys_cons, ih h.2, List.cons_append]

theorem nodup_dictKeys_dictSet {κ α : Type} [DecidableEq κ] (m : List (κ × α)) (key : κ) (v : α)
    (h : (dictKeys m).Nodup) : (dictKeys (dictSet m key v)).Nodup := by
  by_cases hmem : key ∈ dictKeys m
  · rwa [dictKeys_dictSet_of_mem m key v hmem]
  · rw [dictKeys_dictSet_of_not_mem m key v hmem]
    simp [List.nodup_append, h, hmem]

theorem dictGet_eq_some_of_mem {κ α : Type} [DecidableEq κ] (m : List (κ × α)) (key : κ) (v : α)
    (hnd : (dictKeys m).Nodup) (hmem : (key, v) ∈ m) : dictGet m key = some v := by
  induction m with
  | nil => simp at hmem
  | cons p rest ih =>
    obtain ⟨k, w⟩ := p
    rw [dictKeys_cons, List.nodup_cons] at hnd
    rcases List.mem_cons.mp hmem with h | h
    · injection h with h1 h2
      subst h1
      subst h2
      simp [dictGet]
    · have hk : k ≠ key := by
        intro hkk
        subst hkk
        exact hnd.1 (List.mem_map.mpr ⟨(k, v), h, rfl⟩)
      simp [dictGet, hk, ih hnd.2 h]

theorem dictGet_isSome_iff_mem_keys {κ α : Type} [DecidableEq κ] (m : List (κ × α)) (key : κ) :
    (dictGet m key).isSome ↔ key ∈ dictKeys m := by
  induction m with
  | nil => simp [dictGet, dictKeys]
  | cons p rest ih =>
    obtain ⟨k, w⟩ := p
    by_cases hk : k = key
    · simp [dictGet, hk, dictKeys_cons]
    · rw [dictKeys_cons, List.mem_cons]
      simp only [dictGet, if_neg hk, ih]
      have : ¬ key = k := fun h => hk h.symm
      tauto

theorem insDesc_perm {α : Type} (f : α → ℚ) (x : α) (l : List α) :
    (insDesc f x l).Perm (x :: l) := by
  induction l with
  | nil => simp [insDesc]
  | cons y ys ih =>
    by_cases h : f x < f y
    · simp only [insDesc, if_pos h]
      exact (ih.cons y).trans (List.Perm.swap x y ys)
    · simp [insDesc, if_neg h]

theorem sortDesc_perm {α : Type} (f : α → ℚ) (l : List α) : (sortDesc f l).Perm l := by
  induction l with
  | nil => simp [sortDesc]
  | cons x xs ih => exact (insDesc_perm f x (sortDesc f xs)).trans (ih.cons x)

theorem insDesc_pairwise {α : Type} (f : α → ℚ) (x : α) (l : List α)
    (hl : l.Pairwise (fun a b => f b ≤ f a)) :
    (insDesc f x l).Pairwise (fun a b => f b ≤ f a) := by
  induction l with
  | nil => simp [insDesc]
  | cons y ys ih =>
    rcases List.pairwise_cons.mp hl with ⟨hy, hys⟩
    by_cases h : f x < f y
    · simp only [insDesc, if_pos h]
      refine List.pairwise_cons.mpr ⟨?_, ih hys⟩
      intro z hz
      rcases List.mem_cons.mp ((insDesc_perm f x ys).mem_iff.mp hz) with hzx | hzys
      · rw [hzx]
        exact h.le
      · exact hy z hzys
    · simp only [insDesc, if_neg h]
      push_neg at h
      refine List.pairwise_cons.mpr ⟨?_, hl⟩
      intro z hz
      rcases List.mem_cons.mp hz with hzy | hzys
      · rw [hzy]
        exact h
      · exact le_trans (hy z hzys) h

theorem sortDesc_pairwise {α : Type} (f : α → ℚ) (l : List α) :
    (sortDesc f l).Pairwise (fun a b => f b ≤ f a) := by
  induction l with
  | nil => simp [sortDesc]
  | cons x xs ih => exact insDesc_pairwise f x (sortDesc f xs) ih

theorem insDesc_pairwise_stable {α : Type} (f : α → ℚ) (Q : α → α → Prop) (x : α) (l : List α)
    (hl : l.Pairwise (fun a b => f b < f a ∨ (f a = f b ∧ Q a b)))
    (hx : ∀ y ∈ l, f x = f y → Q x y) :
    (insDesc f x l).Pairwise (fun a b => f b < f a ∨ (f a = f b ∧ Q a b)) := by
  induction l with
  | nil => simp [insDesc]
  | cons y ys ih =>
    rcases List.pairwise_cons.mp hl with ⟨hy, hys⟩
    by_cases h : f x < f y
    · simp only [insDesc, if_pos h]
      refine List.pairwise_cons.mpr ⟨?_, ih hys (fun z hz => hx z (List.mem_cons_of_mem y hz))⟩
      intro z hz
      rcases List.mem_cons.mp ((insDesc_perm f x ys).mem_iff.mp hz) with hzx | hzys
      · rw [hzx]
        exact Or.inl h
      · exact hy z hzys
    · simp only [insDesc, if_neg h]
      push_neg at h
      refine List.pairwise_cons.mpr ⟨?_, hl⟩
      intro z hz
      rcases List.mem_cons.mp hz with hzy | hzys
      · rw [hzy]
        rcases lt_or_eq_of_le h with hlt | heq
        · exact Or.inl hlt
        · exact Or.inr ⟨heq.symm, hx y (List.mem_cons_self y ys) heq.symm⟩
      · rcases hy z hzys with hlt | ⟨heq, hq⟩
        · exact Or.inl (lt_of_lt_of_le hlt h)
        · rcases lt_or_eq_of_le h with hlt2 | heq2
          · rw [heq] at hlt2
            exact Or.inl hlt2
          · have hxz : f x = f z := heq2.symm.trans heq
            exact Or.inr ⟨hxz, hx z (List.mem_cons_of_mem y hzys) hxz⟩

theorem sortDesc_pairwise_stable {α : Type} (f : α → ℚ) (Q : α → α → Prop) (l : List α)
    (hl : l.Pairwise Q) :
    (sortDesc f l).Pairwise (fun a b => f b < f a ∨ (f a = f b ∧ Q a b)) := by
  induction l with
  | nil => simp [sortDesc]
  | cons x xs ih =>
    rcases List.pairwise_cons.mp hl with ⟨hx, hxs⟩
    refine insDesc_pairwise_stable f Q x (sortDesc f xs) (ih hxs) ?_
    intro y hy _
    exact hx y ((sortDesc_perm f xs).mem_iff.mp hy)

theorem rankOf_eq_none_iff (d : String) (l : List SearchResult) :
    ∀ rank : ℕ, rankOf d l rank = none ↔ d ∉ l.map get_doc_id := by
  induction l with
  | nil => intro rank; simp [rankOf]
  | cons r rest ih =>
    intro rank
    by_cases hd : get_doc_id r = d
    · simp [rankOf, hd]
    · have hstep : rankOf d (r :: rest) rank = rankOf d rest (rank + 1) := by
        simp [rankOf, hd]
      rw [hstep, ih (rank + 1), List.map_cons]
      constructor
      · intro h hmem
        rcases List.mem_cons.mp hmem with h1 | h1
        · exact hd h1.symm
        · exact h h1
      · intro h hmem
        exact h (List.mem_cons_of_mem _ hmem)

theorem findDoc_eq_none_iff (d : String) (l : List SearchResult) :
    findDoc d l = none ↔ d ∉ l.map get_doc_id := by
  induction l with
  | nil => simp [findDoc]
  | cons r rest ih =>
    by_cases hd : get_doc_id r = d
    · simp [findDoc, hd]
    · have hstep : findDoc d (r :: rest) = findDoc d rest := by
        simp [findDoc, hd]
      rw [hstep, ih, List.map_cons]
      constructor
      · intro h hmem
        rcases List.mem_cons.mp hmem with h1 | h1
        · exact hd h1.symm
        · exact h h1
      · intro h hmem
        exact h (List.mem_cons_of_mem _ hmem)

theorem findDoc_doc_id (d : String) (l : List SearchResult) (r : SearchResult)
    (h : findDoc d l = some r) : get_doc_id r = d := by
  induction l with
  | nil => simp [findDoc] at h
  | cons x rest ih =>
    by_cases hd : get_doc_id x = d
    · rw [findDoc, if_pos hd] at h
      injection h with h
      rw [← h]
      exact hd
    · rw [findDoc, if_neg hd] at h
      exact ih h

theorem rrfVectorPass_scores_get (alpha : ℚ) (k : ℕ) (v : List SearchResult) :
    ∀ (rank : ℕ) (m : List (String × SearchResult)) (s : List (String × ℚ)) (d : String),
    (v.map get_doc_id).Nodup →
    dictGet (rrfVectorPass alpha k v rank (m, s)).2 d =
      (match rankOf d v rank with
       | some i => some (alpha / ((k : ℚ) + (i : ℚ)))
       | none => dictGet s d) := by
  induction v with
  | nil =>
    intro rank m s d hv
    simp [rrfVectorPass, rankOf]
  | cons r rest ih =>
    intro rank m s d hv
    rw [List.map_cons, List.nodup_cons] at hv
    rw [show rrfVectorPass alpha k (r :: rest) rank (m, s)
        = rrfVectorPass alpha k rest (rank + 1)
            (dictSet m (get_doc_id r) r,
             dictSet s (get_doc_id r) (alpha / ((k : ℚ) + (rank : ℚ)))) from rfl]
    rw [ih (rank + 1) _ _ d hv.2]
    by_cases hd : get_doc_id r = d
    · subst hd
      have hnone : rankOf (get_doc_id r) rest (rank + 1) = none :=
        (rankOf_eq_none_iff _ _ _).mpr hv.1
      simp [rankOf, hnone, dictGet_dictSet_self]
    · have : rankOf d (r :: rest) rank = rankOf d rest (rank + 1) := by
        simp [rankOf, hd]
      rw [this]
      cases hrk : rankOf d rest (rank + 1) with
      | none => simp [dictGet_dictSet_ne _ _ _ _ hd]
      | some i => rfl

theorem rrfVectorPass_map_get (alpha : ℚ) (k : ℕ) (v : List SearchResult) :
    ∀ (rank : ℕ) (m : List (String × SearchResult)) (s : List (String × ℚ)) (d : String),
    (v.map get_doc_id).Nodup →
    dictGet (rrfVectorPass alpha k v rank (m, s)).1 d =
      (match findDoc d v with
       | some r => some r
       | none => dictGet m d) := by
  induction v with
  | nil =>
    intro rank m s d hv
    simp [rrfVectorPass, findDoc]
  | cons r rest ih =>
    intro rank m s d hv
    rw [List.map_cons, List.nodup_cons] at hv
    rw [show rrfVectorPass alpha k (r :: rest) rank (m, s)
        = rrfVectorPass alpha k rest (rank + 1)
            (dictSet m (get_doc_id r) r,
             dictSet s (get_doc_id r) (alpha / ((k : ℚ) + (rank : ℚ)))) from rfl]
    rw [ih (rank + 1) _ _ d hv.2]
    by_cases hd : get_doc_id r = d
    · subst hd
      have hnone : findDoc (get_doc_id r) rest = none :=
        (findDoc_eq_none_iff _ _).mpr hv.1
      simp [findDoc, hnone, dictGet_dictSet_self]
    · have : findDoc d (r :: rest) = findDoc d rest := by
        simp [findDoc, hd]
      rw [this]
      cases hf : findDoc d rest with
      | none => simp [dictGet_dictSet_ne _ _ _ _ hd]
      | some x => rfl

theorem mem_keys_rrfVectorPass_scores (alpha : ℚ) (k : ℕ) (v : List SearchResult) :
    ∀ (rank : ℕ) (m : List (String × SearchResult)) (s : List (String × ℚ)) (d : String),
    (d ∈ dictKeys (rrfVectorPass alpha k v rank (m, s)).2 ↔
      d ∈ dictKeys s ∨ d ∈ v.map get_doc_id) := by
  induction v with
  | nil =>
    intro rank m s d
    simp [rrfVectorPass]
  | cons r rest ih =>
    intro rank m s d
    rw [show rrfVectorPass alpha k (r :: rest) rank (m, s)
        = rrfVectorPass alpha k rest (rank + 1)
            (dictSet m (get_doc_id r) r,
             dictSet s (get_doc_id r) (alpha / ((k : ℚ) + (rank : ℚ)))) from rfl]
    rw [ih (rank + 1)]
    rw [mem_dictKeys_dictSet]
    simp [List.mem_cons, eq_comm]
    tauto

theorem mem_keys_rrfVectorPass_map (alpha : ℚ) (k : ℕ) (v : List SearchResult) :
    ∀ (rank : ℕ) (m : List (String × SearchResult)) (s : List (String × ℚ)) (d : String),
    (d ∈ dictKeys (rrfVectorPass alpha k v rank (m, s)).1 ↔
      d ∈ dictKeys m ∨ d ∈ v.map get_doc_id) := by
  induction v with
  | nil =>
    intro rank m s d
    simp [rrfVectorPass]
  | cons r rest ih =>
    intro rank m s d
    rw [show rrfVectorPass alpha k (r :: rest) rank (m, s)
        = rrfVectorPass alpha k rest (rank + 1)
            (dictSet m (get_doc_id r) r,
             dictSet s (get_doc_id r) (alpha / ((k : ℚ) + (rank : ℚ)))) from rfl]
    rw [ih (rank + 1)]
    rw [mem_dictKeys_dictSet]
    simp [List.mem_cons, eq_comm]
    tauto

theorem nodup_keys_rrfVectorPass_scores (alpha : ℚ) (k : ℕ) (v : List SearchResult) :
    ∀ (rank : ℕ) (m : List (String × SearchResult)) (s : List (String × ℚ)),
    (dictKeys s).Nodup → (dictKeys (rrfVectorPass alpha k v rank (m, s)).2).Nodup := by
  induction v with
  | nil =>
    intro rank m s hs
    simpa [rrfVectorPass] using hs
  | cons r rest ih =>
    intro rank m s hs
    rw [show rrfVectorPass alpha k (r :: rest) rank (m, s)
        = rrfVectorPass alpha k rest (rank + 1)
            (dictSet m (get_doc_id r) r,
             dictSet s (get_doc_id r) (alpha / ((k : ℚ) + (rank : ℚ)))) from rfl]
    exact ih (rank + 1) _ _ (nodup_dictKeys_dictSet _ _ _ hs)

theorem rrfBM25Pass_scores_get (alpha : ℚ) (k : ℕ) (l : List SearchResult) :
    ∀ (rank : ℕ) (m : List (String × SearchResult)) (s : List (String × ℚ)) (d : String),
    (l.map get_doc_id).Nodup →
    dictGet (rrfBM25Pass alpha k l rank (m, s)).2 d =
      (match rankOf d l rank with
       | some i => some ((dictGet s d).getD 0 + (1 - alpha) / ((k : ℚ) + (i : ℚ)))
       | none => dictGet s d) := by
  induction l with
  | nil =>
    intro rank m s d hl
    simp [rrfBM25Pass, rankOf]
  | cons r rest ih =>
    intro rank m s d hl
    rw [List.map_cons, List.nodup_cons] at hl
    rw [show rrfBM25Pass alpha k (r :: rest) rank (m, s)
        = rrfBM25Pass alpha k rest (rank + 1)
            (if (dictGet m (get_doc_id r)).isSome then m else dictSet m (get_doc_id r) r,
             dictSet s (get_doc_id r)
               ((dictGet s (get_doc_id r)).getD 0 + (1 - alpha) / ((k : ℚ) + (rank : ℚ)))) from rfl]
    rw [ih (rank + 1) _ _ d hl.2]
    by_cases hd : get_doc_id r = d
    · subst hd
      have hnone : rankOf (get_doc_id r) rest (rank + 1) = none :=
        (rankOf_eq_none_iff _ _ _).mpr hl.1
      simp [rankOf, hnone, dictGet_dictSet_self]
    · have hstep : rankOf d (r :: rest) rank = rankOf d rest (rank + 1) := by
        simp [rankOf, hd]
      rw [hstep]
      cases hrk : rankOf d rest (rank + 1) with
      | none => simp [dictGet_dictSet_ne _ _ _ _ hd]
      | some i => simp [dictGet_dictSet_ne _ _ _ _ hd]

theorem rrfBM25Pass_map_get (alpha : ℚ) (k : ℕ) (l : List SearchResult) :
    ∀ (rank : ℕ) (m : List (String × SearchResult)) (s : List (String × ℚ)) (d : String),
    dictGet (rrfBM25Pass alpha k l rank (m, s)).1 d =
      (match dictGet m d with
       | some r => some r
       | none => findDoc d l) := by
  induction l with
  | nil =>
    intro rank m s d
    simp [rrfBM25Pass, findDoc]
    cases dictGet m d <;> rfl
  | cons r rest ih =>
    intro rank m s d
    rw [show rrfBM25Pass alpha k (r :: rest) rank (m, s)
        = rrfBM25Pass alpha k rest (rank + 1)
            (if (dictGet m (get_doc_id r)).isSome then m else dictSet m (get_doc_id r) r,
             dictSet s (get_doc_id r)
               ((dictGet s (get_doc_id r)).getD 0 + (1 - alpha) / ((k : ℚ) + (rank : ℚ)))) from rfl]
    by_cases hpres : (dictGet m (get_doc_id r)).isSome
    · rw [if_pos hpres, ih (rank + 1)]
      by_cases hd : get_doc_id r = d
      · subst hd
        rcases Option.isSome_iff_exists.mp hpres with ⟨x, hx⟩
        simp [hx, findDoc]
      · have hstep : findDoc d (r :: rest) = findDoc d rest := by
          simp [findDoc, hd]
        rw [hstep]
    · rw [if_neg hpres, ih (rank + 1)]
      have hmnone : dictGet m (get_doc_id r) = none := by
        cases hmm : dictGet m (get_doc_id r)
        · rfl
        · rw [hmm] at hpres
          simp at hpres
      by_cases hd : get_doc_id r = d
      · subst hd
        simp [dictGet_dictSet_self, hmnone, findDoc]
      · have hstep : findDoc d (r :: rest) = findDoc d rest := by
          simp [findDoc, hd]
        rw [hstep, dictGet_dictSet_ne _ _ _ _ hd]

theorem mem_keys_rrfBM25Pass_scores (alpha : ℚ) (k : ℕ) (l : List SearchResult) :
    ∀ (rank : ℕ) (m : List (String × SearchResult)) (s : List (String × ℚ)) (d : String),
    (d ∈ dictKeys (rrfBM25Pass alpha k l rank (m, s)).2 ↔
      d ∈ dictKeys s ∨ d ∈ l.map get_doc_id) := by
  induction l with
  | nil =>
    intro rank m s d
    simp [rrfBM25Pass]
  | cons r rest ih =>
    intro rank m s d
    rw [show rrfBM25Pass alpha k (r :: rest) rank (m, s)
        = rrfBM25Pass alpha k rest (rank + 1)
            (if (dictGet m (get_doc_id r)).isSome then m else dictSet m (get_doc_id r) r,
             dictSet s (get_doc_id r)
               ((dictGet s (get_doc_id r)).getD 0 + (1 - alpha) / ((k : ℚ) + (rank : ℚ)))) from rfl]
    rw [ih (rank + 1)]
    rw [mem_dictKeys_dictSet]
    simp [List.mem_cons, eq_comm]
    tauto

theorem nodup_keys_rrfBM25Pass_scores (alpha : ℚ) (k : ℕ) (l : List SearchResult) :
    ∀ (rank : ℕ) (m : List (String × SearchResult)) (s : List (String × ℚ)),
    (dictKeys s).Nodup → (dictKeys (rrfBM25Pass alpha k l rank (m, s)).2).Nodup := by
  induction l with
  | nil =>
    intro rank m s hs
    simpa [rrfBM25Pass] using hs
  | cons r rest ih =>
    intro rank m s hs
    rw [show rrfBM25Pass alpha k (r :: rest) rank (m, s)
        = rrfBM25Pass alpha k rest (rank + 1)
            (if (dictGet m (get_doc_id r)).isSome then m else dictSet m (get_doc_id r) r,
             dictSet s (get_doc_id r)
               ((dictGet s (get_doc_id r)).getD 0 + (1 - alpha) / ((k : ℚ) + (rank : ℚ)))) from rfl]
    exact ih (rank + 1) _ _ (nodup_dictKeys_dictSet _ _ _ hs)

theorem rrfRebuild_source (docMap : List (String × SearchResult)) (p : String × ℚ) :
    (rrfRebuild docMap p).source = "hybrid" := by
  cases h : dictGet docMap p.1 <;> simp [rrfRebuild, h]

theorem rrfRebuild_score (docMap : List (String × SearchResult)) (p : String × ℚ) :
    (rrfRebuild docMap p).score = p.2 := by
  cases h : dictGet docMap p.1 <;> simp [rrfRebuild, h]

theorem get_doc_id_update (r : SearchResult) (x : ℚ) (s : String) :
    get_doc_id { r with score := x, source := s } = get_doc_id r := rfl

/-- C1: for nodup rankings, reciprocal rank fusion returns every distinct
document of either input exactly once, tagged `source = "hybrid"`, sorted by
fused score descending, and each document's fused score is the sum of
`alpha/(k+r)` for its 1-based vector rank and `(1-alpha)/(k+r)` for its
1-based lexical rank, a document in only one list getting only that
contribution. -/
theorem rrf_spec (alpha : ℚ) (k : ℕ) (v l : List SearchResult)
    (hv : (v.map get_doc_id).Nodup) (hl : (l.map get_doc_id).Nodup) :
    (∀ r ∈ reciprocal_rank_fusion alpha k v l, r.source = "hybrid")
    ∧ (reciprocal_rank_fusion alpha k v l).Pairwise (fun a b => b.score ≤ a.score)
    ∧ (∀ d : String, d ∈ (reciprocal_rank_fusion alpha k v l).map get_doc_id ↔
        d ∈ v.map get_doc_id ∨ d ∈ l.map get_doc_id)
    ∧ ((reciprocal_rank_fusion alpha k v l).map get_doc_id).Nodup
    ∧ (∀ r ∈ reciprocal_rank_fusion alpha k v l,
        r.score = rrfContrib alpha k v (get_doc_id r)
          + rrfContrib (1 - alpha) k l (get_doc_id r)) := by
  classical
  set st1 := rrfVectorPass alpha k v 1 ([], []) with hst1def
  set st2 := rrfBM25Pass alpha k l 1 st1 with hst2def
  have heta1 : st1 = (st1.1, st1.2) := rfl
  have houtdef : reciprocal_rank_fusion alpha k v l
      = (sortDesc Prod.snd st2.2).map (rrfRebuild st2.1) := by
    rw [hst2def, hst1def]
    rfl
  have hkeys2 : ∀ d, d ∈ dictKeys st2.2 ↔ d ∈ v.map get_doc_id ∨ d ∈ l.map get_doc_id := by
    intro d
    have h2 := mem_keys_rrfBM25Pass_scores alpha k l 1 st1.1 st1.2 d
    rw [← heta1, ← hst2def] at h2
    have h1 := mem_keys_rrfVectorPass_scores alpha k v 1 [] [] d
    rw [← hst1def] at h1
    rw [h2, h1]
    simp [dictKeys]
  have hnd2 : (dictKeys st2.2).Nodup := by
    have h2 := nodup_keys_rrfBM25Pass_scores alpha k l 1 st1.1 st1.2
    rw [← heta1, ← hst2def] at h2
    apply h2
    have h1 := nodup_keys_rrfVectorPass_scores alpha k v 1 [] []
    rw [← hst1def] at h1
    apply h1
    simp [dictKeys]
  have hscore : ∀ d, d ∈ v.map get_doc_id ∨ d ∈ l.map get_doc_id →
      dictGet st2.2 d = some (rrfContrib alpha k v d + rrfContrib (1 - alpha) k l d) := by
    intro d hd
    have h2 := rrfBM25Pass_scores_get alpha k l 1 st1.1 st1.2 d hl
    rw [← heta1, ← hst2def] at h2
    have h1 := rrfVectorPass_scores_get alpha k v 1 [] [] d hv
    rw [← hst1def] at h1
    rw [h2]
    cases hrl : rankOf d l 1 with
    | some j =>
      cases hrv : rankOf d v 1 with
      | some i =>
        rw [h1, hrv]
        simp [rrfContrib, hrv, hrl]
      | none =>
        rw [h1, hrv]
        simp [rrfContrib, hrv, hrl, dictGet]
    | none =>
      cases hrv : rankOf d v 1 with
      | some i =>
        rw [h1, hrv]
        simp [rrfContrib, hrv, hrl]
      | none =>
        rcases hd with hd | hd
        · exact absurd hd (((rankOf_eq_none_iff d v 1)).mp hrv)
        · exact absurd hd (((rankOf_eq_none_iff d l 1)).mp hrl)
  have hmapget : ∀ d, dictGet st2.1 d =
      (match findDoc d v with
       | some r => some r
       | none => findDoc d l) := by
    intro d
    have h2 := rrfBM25Pass_map_get alpha k l 1 st1.1 st1.2 d
    rw [← heta1, ← hst2def] at h2
    have h1 := rrfVectorPass_map_get alpha k v 1 [] [] d hv
    rw [← hst1def] at h1
    rw [h2, h1]
    cases findDoc d v with
    | some r => rfl
    | none => simp [dictGet]
  have hmapid : ∀ d r, dictGet st2.1 d = some r → get_doc_id r = d := by
    intro d r h
    rw [hmapget d] at h
    cases hfv : findDoc d v with
    | some x =>
      rw [hfv] at h
      injection h with h
      rw [← h]
      exact findDoc_doc_id d v x hfv
    | none =>
      rw [hfv] at h
      exact findDoc_doc_id d l r h
  have hmapsome : ∀ d, d ∈ v.map get_doc_id ∨ d ∈ l.map get_doc_id →
      (dictGet st2.1 d).isSome := by
    intro d hd
    rw [hmapget d]
    cases hfv : findDoc d v with
    | some x => simp
    | none =>
      have hdl : d ∈ l.map get_doc_id := by
        rcases hd with h | h
        · exact absurd h ((findDoc_eq_none_iff d v).mp hfv)
        · exact h
      cases hfl : findDoc d l with
      | some y => simp
      | none => exact absurd hdl ((findDoc_eq_none_iff d l).mp hfl)
  have hrebuild : ∀ p ∈ st2.2, get_doc_id (rrfRebuild st2.1 p) = p.1 := by
    intro p hp
    have hpk : p.1 ∈ dictKeys st2.2 := List.mem_map.mpr ⟨p, hp, rfl⟩
    have hmem := (hkeys2 p.1).mp hpk
    rcases Option.isSome_iff_exists.mp (hmapsome p.1 hmem) with ⟨r, hr⟩
    have : rrfRebuild st2.1 p = { r with score := p.2, source := "hybrid" } := by
      simp [rrfRebuild, hr]
    rw [this, get_doc_id_update]
    exact hmapid p.1 r hr
  have hmapids : (reciprocal_rank_fusion alpha k v l).map get_doc_id
      = (sortDesc Prod.snd st2.2).map Prod.fst := by
    rw [houtdef, List.map_map]
    apply List.map_congr_left
    intro p hp
    exact hrebuild p ((sortDesc_perm _ _).mem_iff.mp hp)
  have hpermkeys : ((sortDesc Prod.snd st2.2).map Prod.fst).Perm (dictKeys st2.2) :=
    (sortDesc_perm _ _).map Prod.fst
  refine ⟨?_, ?_, ?_, ?_, ?_⟩
  · intro r hr
    rw [houtdef] at hr
    rcases List.mem_map.mp hr with ⟨p, hp, rfl⟩
    exact rrfRebuild_source st2.1 p
  · rw [houtdef, List.pairwise_map]
    refine (sortDesc_pairwise Prod.snd st2.2).imp ?_
    intro p q h
    rw [rrfRebuild_score, rrfRebuild_score]
    exact h
  · intro d
    rw [hmapids, hpermkeys.mem_iff]
    exact hkeys2 d
  · rw [hmapids, hpermkeys.nodup_iff]
    exact hnd2
  · intro r hr
    rw [houtdef] at hr
    rcases List.mem_map.mp hr with ⟨p, hp, rfl⟩
    have hpmem : p ∈ st2.2 := (sortDesc_perm _ _).mem_iff.mp hp
    have hdg : get_doc_id (rrfRebuild st2.1 p) = p.1 := hrebuild p hpmem
    have hpk : p.1 ∈ dictKeys st2.2 := List.mem_map.mpr ⟨p, hpmem, rfl⟩
    have hmem := (hkeys2 p.1).mp hpk
    have hget : dictGet st2.2 p.1 = some p.2 :=
      dictGet_eq_some_of_mem st2.2 p.1 p.2 hnd2 hpmem
    rw [hscore p.1 hmem] at hget
    rw [hdg, rrfRebuild_score]
    injection hget with hget
    exact hget.symm

/-- Witness for `rrf_spec` at the spec's concrete example: vector ranking
`[A, B]`, lexical ranking `[B, C]`, `alpha = 0.5`, `k = 60`; the fused scores
are `fused(A) = 0.5/61`, `fused(B) = 0.5/62 + 0.5/61`, `fused(C) = 0.5/62`
and the output order is B, A, C. -/
theorem rrf_spec_witness :
    ((List.map get_doc_id [exDocA, exDocB]).Nodup
      ∧ (List.map get_doc_id [exDocBLex, exDocC]).Nodup
      ∧ ((∀ r ∈ reciprocal_rank_fusion (1/2) 60 [exDocA, exDocB] [exDocBLex, exDocC],
            r.source = "hybrid")
        ∧ (reciprocal_rank_fusion (1/2) 60 [exDocA, exDocB] [exDocBLex, exDocC]).Pairwise
            (fun a b => b.score ≤ a.score)
        ∧ (∀ d : String,
            d ∈ (reciprocal_rank_fusion (1/2) 60 [exDocA, exDocB] [exDocBLex, exDocC]).map
                  get_doc_id ↔
              d ∈ [exDocA, exDocB].map get_doc_id ∨ d ∈ [exDocBLex, exDocC].map get_doc_id)
        ∧ ((reciprocal_rank_fusion (1/2) 60 [exDocA, exDocB] [exDocBLex, exDocC]).map
              get_doc_id).Nodup
        ∧ (∀ r ∈ reciprocal_rank_fusion (1/2) 60 [exDocA, exDocB] [exDocBLex, exDocC],
            r.score = rrfContrib (1/2) 60 [exDocA, exDocB] (get_doc_id r)
              + rrfContrib (1 - 1/2) 60 [exDocBLex, exDocC] (get_doc_id r))))
    ∧ reciprocal_rank_fusion (1/2) 60 [exDocA, exDocB] [exDocBLex, exDocC]
        = [{ exDocB with score := 1/2 / 62 + 1/2 / 61, source := "hybrid" },
           { exDocA with score := 1/2 / 61, source := "hybrid" },
           { exDocC with score := 1/2 / 62, source := "hybrid" }] :=
  ⟨⟨by decide, by decide,
    rrf_spec (1/2) 60 [exDocA, exDocB] [exDocBLex, exDocC] (by decide) (by decide)⟩,
   by
    simp [reciprocal_rank_fusion, rrfVectorPass, rrfBM25Pass, dictSet, dictGet, dictGetD,
      get_doc_id, sortDesc, insDesc, rrfRebuild, exDocA, exDocB, exDocBLex, exDocC]
    norm_num [insDesc, rrfRebuild, dictGet]
    simp⟩

/-- C4: `rerank` on an empty candidate list returns empty for every scorer
(so the external scorer is never consulted); on `n` candidates with one
score per pair it returns `min n top_k` results, sorted descending by the
combined score `0.7 * rerank + 0.3 * prior`, every one tagged
`source = "reranked"`. -/
theorem rerank_spec (predict : List (String × String) → List ℚ) (query : String)
    (documents : List SearchResult) (top_k : ℕ)
    (hlen : (predict (documents.map (fun doc => (query, doc.content)))).length
      = documents.length) :
    (∀ (p : List (String × String) → List ℚ) (q : String) (t : ℕ), (rerank p q [] t).1 = [])
    ∧ (rerank predict query documents top_k).1.length = min documents.length top_k
    ∧ (rerank predict query documents top_k).1.Pairwise (fun a b => b.score ≤ a.score)
    ∧ (∀ r ∈ (rerank predict query documents top_k).1,
        r.source = "reranked"
        ∧ ∃ pr ∈ documents.zip (predict (documents.map (fun doc => (query, doc.content)))),
            r = rerankCombine pr) := by
  classical
  refine ⟨fun p q t => rfl, ?_, ?_, ?_⟩
  · by_cases hdoc : documents.isEmpty
    · rw [List.isEmpty_iff] at hdoc
      subst hdoc
      simp [rerank]
    · rw [show (rerank predict query documents top_k).1
          = (sortDesc SearchResult.score
              ((documents.zip (predict (documents.map (fun doc => (query, doc.content))))).map
                rerankCombine)).take top_k from by
            simp [rerank, hdoc]]
      rw [List.length_take]
      rw [(sortDesc_perm _ _).length_eq]
      rw [List.length_map, List.length_zip, hlen]
      simp [Nat.min_comm]
  · by_cases hdoc : documents.isEmpty
    · rw [List.isEmpty_iff] at hdoc
      subst hdoc
      simp [rerank]
    · rw [show (rerank predict query documents top_k).1
          = (sortDesc SearchResult.score
              ((documents.zip (predict (documents.map (fun doc => (query, doc.content))))).map
                rerankCombine)).take top_k from by
            simp [rerank, hdoc]]
      exact (sortDesc_pairwise _ _).sublist (List.take_sublist _ _)
  · by_cases hdoc : documents.isEmpty
    · rw [List.isEmpty_iff] at hdoc
      subst hdoc
      simp [rerank]
    · intro r hr
      rw [show (rerank predict query documents top_k).1
          = (sortDesc SearchResult.score
              ((documents.zip (predict (documents.map (fun doc => (query, doc.content))))).map
                rerankCombine)).take top_k from by
            simp [rerank, hdoc]] at hr
      have hr2 := (List.take_sublist _ _).mem hr
      have hr3 := (sortDesc_perm _ _).mem_iff.mp hr2
      rcases List.mem_map.mp hr3 with ⟨pr, hpr, rfl⟩
      exact ⟨rfl, pr, hpr, rfl⟩

/-- C10: `rerank` mutates every input candidate, not just the returned ones:
after the call, each of the `n` candidate objects (position `i` of the
post-call candidate list, including positions dropped by the `top_k`
truncation) carries `score = 0.7 * rerank + 0.3 * prior` and
`source = "reranked"`. -/
theorem rerank_mutates_all (predict : List (String × String) → List ℚ) (query : String)
    (documents : List SearchResult) (top_k : ℕ)
    (hlen : (predict (documents.map (fun doc => (query, doc.content)))).length
      = documents.length) :
    (rerank predict query documents top_k).2.length = documents.length
    ∧ ∀ i, i < documents.length → ∀ (d : SearchResult) (x : ℚ),
        ((rerank predict query documents top_k).2.getD i d).source = "reranked"
        ∧ ((rerank predict query documents top_k).2.getD i d).score
            = 0.7 * ((predict (documents.map (fun doc => (query, doc.content)))).getD i x)
              + 0.3 * (documents.getD i d).score := by
  classical
  by_cases hdoc : documents.isEmpty
  · rw [List.isEmpty_iff] at hdoc
    subst hdoc
    refine ⟨by simp [rerank], ?_⟩
    intro i hi
    simp at hi
  · have hpost : (rerank predict query documents top_k).2
        = (documents.zip (predict (documents.map (fun doc => (query, doc.content))))).map
            rerankCombine := by
      simp [rerank, hdoc]
    have hziplen :
        (documents.zip (predict (documents.map (fun doc => (query, doc.content))))).length
          = documents.length := by
      rw [List.length_zip, hlen, Nat.min_self]
    have hl2 : (rerank predict query documents top_k).2.length = documents.length := by
      rw [hpost, List.length_map, hziplen]
    refine ⟨hl2, ?_⟩
    intro i hi d x
    have hi2 : i < (rerank predict query documents top_k).2.length := by rw [hl2]; exact hi
    have hizip :
        i < (documents.zip (predict (documents.map (fun doc => (query, doc.content))))).length := by
      rw [hziplen]; exact hi
    have hip : i < (predict (documents.map (fun doc => (query, doc.content)))).length := by
      rw [hlen]; exact hi
    have hval : (rerank predict query documents top_k).2.getD i d
        = rerankCombine (documents[i], (predict (documents.map (fun doc => (query, doc.content))))[i]) := by
      rw [List.getD_eq_getElem _ _ hi2]
      simp only [hpost, List.getElem_map, List.getElem_zip]
    rw [hval, List.getD_eq_getElem _ _ hip, List.getD_eq_getElem _ _ hi]
    exact ⟨rfl, rfl⟩

/-- Witness for `rerank_spec`: with 10 fused candidates and
`rerank_top_k = 3` the returned list has exactly `min 10 3 = 3` entries. -/
theorem rerank_spec_witness :
    ((exPredict (exRerankDocs.map (fun doc => ("q", doc.content)))).length
        = exRerankDocs.length)
    ∧ (rerank exPredict "q" exRerankDocs 3).1.length = min exRerankDocs.length 3
    ∧ min exRerankDocs.length 3 = 3 := by
  have hlen : (exPredict (exRerankDocs.map (fun doc => ("q", doc.content)))).length
      = exRerankDocs.length := by simp [exPredict, exRerankDocs]
  exact ⟨hlen, (rerank_spec exPredict "q" exRerankDocs 3 hlen).2.1, by simp [exRerankDocs]⟩

/-- Witness for `rerank_mutates_all`: at the same concrete ten-candidate
call, every candidate object is mutated, e.g. the lowest-ranked candidate
(position 0, excluded from the three returned results) ends with
`score = 0.7 * 1 + 0.3 * 0` and `source = "reranked"`. -/
theorem rerank_mutates_all_witness :
    ((exPredict (exRerankDocs.map (fun doc => ("q", doc.content)))).length
        = exRerankDocs.length)
    ∧ (rerank exPredict "q" exRerankDocs 3).2.length = exRerankDocs.length
    ∧ ((rerank exPredict "q" exRerankDocs 3).2.getD 0 ⟨"", [], 0, ""⟩).source = "reranked"
    ∧ ((rerank exPredict "q" exRerankDocs 3).2.getD 0 ⟨"", [], 0, ""⟩).score
        = 0.7 * 1 + 0.3 * 0 := by
  have hlen : (exPredict (exRerankDocs.map (fun doc => ("q", doc.content)))).length
      = exRerankDocs.length := by simp [exPredict, exRerankDocs]
  have h := rerank_mutates_all exPredict "q" exRerankDocs 3 hlen
  have h0 : 0 < exRerankDocs.length := by simp [exRerankDocs]
  have hx := h.2 0 h0 ⟨"", [], 0, ""⟩ 0
  refine ⟨hlen, h.1, hx.1, ?_⟩
  rw [hx.2]
  have hp : (exPredict (exRerankDocs.map (fun doc => ("q", doc.content)))).getD 0 0 = 1 := rfl
  have hd : (exRerankDocs.getD 0 ⟨"", [], 0, ""⟩).score = 0 := rfl
  rw [hp, hd]

theorem dictSet_eq_append_of_not_mem {κ α : Type} [DecidableEq κ] (m : List (κ × α)) (key : κ)
    (v : α) (h : key ∉ dictKeys m) : dictSet m key v = m ++ [(key, v)] := by
  induction m with
  | nil => simp [dictSet]
  | cons p rest ih =>
    obtain ⟨k, w⟩ := p
    rw [dictKeys_cons, List.mem_cons] at h
    push_neg at h
    have hk : k ≠ key := fun hkk => h.1 hkk.symm
    simp [dictSet, if_neg hk, ih h.2]

theorem buildMapping_eq_append (docs : List DocInfo) :
    ∀ (m : List (ℕ × DocInfo)) (i : ℕ), (∀ k ∈ dictKeys m, k < i) →
    buildMapping m i docs = m ++ enumFromN i docs := by
  induction docs with
  | nil =>
    intro m i h
    simp [buildMapping, enumFromN]
  | cons d rest ih =>
    intro m i h
    have hnot : i ∉ dictKeys m := fun hmem => lt_irrefl i (h i hmem)
    rw [show buildMapping m i (d :: rest) = buildMapping (dictSet m i d) (i + 1) rest from rfl]
    rw [ih (dictSet m i d) (i + 1) ?_]
    · rw [dictSet_eq_append_of_not_mem m i d hnot]
      simp [enumFromN]
    · intro k hk
      rw [dictKeys_dictSet_of_not_mem m i d hnot] at hk
      rcases List.mem_append.mp hk with hk | hk
      · exact Nat.lt_succ_of_lt (h k hk)
      · simp at hk
        omega

theorem dictGet_enumFromN (docs : List DocInfo) :
    ∀ (i j : ℕ) (h : j < docs.length),
    dictGet (enumFromN i docs) (i + j) = some (docs.getD j dummyDocInfo) := by
  induction docs with
  | nil =>
    intro i j h
    simp at h
  | cons d rest ih =>
    intro i j h
    cases j with
    | zero => simp [enumFromN, dictGet]
    | succ j' =>
      have hne : i ≠ i + (j' + 1) := by omega
      have hrw : i + (j' + 1) = (i + 1) + j' := by omega
      rw [show enumFromN i (d :: rest) = (i, d) :: enumFromN (i + 1) rest from rfl]
      rw [show dictGet ((i, d) :: enumFromN (i + 1) rest) (i + (j' + 1))
          = if i = i + (j' + 1) then some d else dictGet (enumFromN (i + 1) rest) (i + (j' + 1))
          from rfl]
      rw [if_neg hne, hrw]
      rw [ih (i + 1) j' (by simpa using Nat.lt_of_succ_lt_succ h)]
      simp [List.getD_cons_succ]

theorem filter_eq_takeWhile_of_pairwise {α : Type} (p : α → Bool) (R : α → α → Prop)
    (l : List α) (hl : l.Pairwise R) (hmono : ∀ a b, R a b → p b = true → p a = true) :
    l.filter p = l.takeWhile p := by
  induction l with
  | nil => simp
  | cons x xs ih =>
    rcases List.pairwise_cons.mp hl with ⟨hx, hxs⟩
    by_cases hpx : p x = true
    · rw [List.filter_cons_of_pos hpx, List.takeWhile_cons_of_pos hpx, ih hxs]
    · rw [List.filter_cons_of_neg (by simpa using hpx),
        List.takeWhile_cons_of_neg (by simpa using hpx)]
      exact List.filter_eq_nil_iff.mpr
        (fun a ha hpa => hpx (hmono x a (hx a ha) (by simpa using hpa)))

theorem length_filter_take_of_pairwise {α : Type} (p : α → Bool) (R : α → α → Prop)
    (l : List α) (hl : l.Pairwise R) (hmono : ∀ a b, R a b → p b = true → p a = true)
    (k : ℕ) : ((l.take k).filter p).length = min k (l.filter p).length := by
  have htake : (l.take k).Pairwise R := hl.sublist (List.take_sublist k l)
  rw [filter_eq_takeWhile_of_pairwise p R _ htake hmono, ← List.take_takeWhile,
    List.length_take, ← filter_eq_takeWhile_of_pairwise p R l hl hmono]

theorem collectResults_ok (mapping : List (ℕ × DocInfo)) (scores : List ℚ) (l : List ℕ)
    (hm : ∀ i ∈ l, 0 < scores.getD i 0 → (dictGet mapping i).isSome) :
    collectResults mapping scores l
      = .ok ((l.filter (fun i => decide (0 < scores.getD i 0))).map
          (fun i => ⟨((dictGet mapping i).getD dummyDocInfo).content,
                     ((dictGet mapping i).getD dummyDocInfo).metadata,
                     scores.getD i 0, "bm25"⟩)) := by
  induction l with
  | nil => simp [collectResults]
  | cons idx rest ih =>
    have hrest : ∀ i ∈ rest, 0 < scores.getD i 0 → (dictGet mapping i).isSome :=
      fun i hi => hm i (List.mem_cons_of_mem idx hi)
    by_cases hp : 0 < scores.getD idx 0
    · rcases Option.isSome_iff_exists.mp (hm idx (List.mem_cons_self idx rest) hp)
        with ⟨info, hinfo⟩
      simp only [collectResults, if_pos hp, hinfo, ih hrest]
      rw [List.filter_cons_of_pos (by simpa using hp)]
      simp [hinfo]
    · simp only [collectResults, if_neg hp, ih hrest]
      rw [List.filter_cons_of_neg (by simpa using hp)]

/-- Correctness of the `top_k`-selection-and-build loop of `search`, for any
score vector with one entry per document and any mapping that resolves every
document index: the produced indices are exactly a `min top_k #positives`
selection of strictly-positive-score indices, in score-descending,
index-ascending order, optimal against every excluded positive index. -/
theorem topkSelect_spec (scores : List ℚ) (mapping : List (ℕ × DocInfo))
    (documents : List DocInfo) (top_k : ℕ)
    (hlen : scores.length = documents.length)
    (hlookup : ∀ i, i < documents.length →
      dictGet mapping i = some (documents.getD i dummyDocInfo)) :
    ∃ idxs : List ℕ,
      collectResults mapping scores
          ((sortDesc (fun i => scores.getD i 0) (List.range scores.length)).take top_k)
        = .ok (idxs.map (fun i =>
            ⟨(documents.getD i dummyDocInfo).content, (documents.getD i dummyDocInfo).metadata,
             scores.getD i 0, "bm25"⟩))
      ∧ (∀ i ∈ idxs, i < documents.length ∧ 0 < scores.getD i 0)
      ∧ idxs.Pairwise (beatsAt scores)
      ∧ idxs.length = min top_k ((List.range documents.length).filter
            (fun i => decide (0 < scores.getD i 0))).length
      ∧ (∀ j, j < documents.length → 0 < scores.getD j 0 → j ∉ idxs →
          ∀ i ∈ idxs, beatsAt scores i j) := by
  classical
  set f : ℕ → ℚ := fun i => scores.getD i 0 with hfdef
  set p : ℕ → Bool := fun i => decide (0 < scores.getD i 0) with hpdef
  set sorted := sortDesc f (List.range scores.length) with hsorteddef
  have hperm : sorted.Perm (List.range scores.length) := sortDesc_perm f _
  have hpair : sorted.Pairwise (fun a b => f b ≤ f a) := sortDesc_pairwise f _
  have hlex : sorted.Pairwise (fun i j => f j < f i ∨ (f i = f j ∧ i < j)) :=
    sortDesc_pairwise_stable f (fun a b => a < b) _ (List.pairwise_lt_range _)
  have hmemsorted : ∀ i ∈ sorted, i < documents.length := by
    intro i hi
    have h2 := List.mem_range.mp (hperm.mem_iff.mp hi)
    rw [hlen] at h2
    exact h2
  have hm : ∀ i ∈ sorted.take top_k, 0 < scores.getD i 0 → (dictGet mapping i).isSome := by
    intro i hi hp
    have hlt := hmemsorted i ((List.take_sublist _ _).mem hi)
    rw [hlookup i hlt]
    rfl
  have hmono : ∀ a b : ℕ, (fun a b : ℕ => f b ≤ f a) a b → p b = true → p a = true := by
    intro a b hab hpb
    simp only [hpdef, decide_eq_true_eq] at hpb ⊢
    exact lt_of_lt_of_le hpb hab
  refine ⟨(sorted.take top_k).filter p, ?_, ?_, ?_, ?_, ?_⟩
  · rw [collectResults_ok mapping scores _ hm]
    congr 1
    apply List.map_congr_left
    intro i hi
    have hi2 : i ∈ sorted := (List.take_sublist _ _).mem (List.mem_filter.mp hi).1
    rw [hlookup i (hmemsorted i hi2)]
    rfl
  · intro i hi
    rcases List.mem_filter.mp hi with ⟨hitake, hpi⟩
    refine ⟨hmemsorted i ((List.take_sublist _ _).mem hitake), ?_⟩
    simpa [hpdef] using hpi
  · exact (hlex.sublist (List.take_sublist _ _)).filter p
  · rw [length_filter_take_of_pairwise p (fun a b => f b ≤ f a) sorted hpair hmono top_k]
    congr 1
    rw [(hperm.filter p).length_eq, hlen]
  · intro j hj hpos hnot i hi
    rcases List.mem_filter.mp hi with ⟨hitake, hpi⟩
    have hjsorted : j ∈ sorted := by
      refine hperm.mem_iff.mpr (List.mem_range.mpr ?_)
      rw [hlen]
      exact hj
    have hjnottake : j ∉ sorted.take top_k := by
      intro hjt
      refine hnot (List.mem_filter.mpr ⟨hjt, ?_⟩)
      simp only [hpdef, decide_eq_true_eq]
      exact hpos
    have hjdrop : j ∈ sorted.drop top_k := by
      have hjsplit : j ∈ sorted.take top_k ++ sorted.drop top_k := by
        rw [List.take_append_drop]
        exact hjsorted
      rcases List.mem_append.mp hjsplit with h | h
      · exact absurd h hjnottake
      · exact h
    have hlexsplit : (sorted.take top_k ++ sorted.drop top_k).Pairwise
        (fun i j => f j < f i ∨ (f i = f j ∧ i < j)) := by
      rw [List.take_append_drop]
      exact hlex
    exact (List.pairwise_append.mp hlexsplit).2.2 i hitake j hjdrop

/-- C5 main statement: searching a freshly built index; see `topkSelect_spec`
for the selection content.  The source tag is `"bm25"`. -/
theorem bm25_search_spec (bm25Scores : List (List String) → List String → List ℚ)
    (tokenize : String → List String) (snap : RedisSnap) (documents : List DocInfo)
    (query : String) (top_k : ℕ)
    (hlen : (bm25QueryScores bm25Scores tokenize documents query).length = documents.length) :
    ∃ idxs : List ℕ,
      bm25_search bm25Scores tokenize snap (build_index tokenize initialBM25State documents)
          query top_k
        = .ok (idxs.map (fun i =>
            ⟨(documents.getD i dummyDocInfo).content, (documents.getD i dummyDocInfo).metadata,
             (bm25QueryScores bm25Scores tokenize documents query).getD i 0, "bm25"⟩))
      ∧ (∀ i ∈ idxs, i < documents.length
          ∧ 0 < (bm25QueryScores bm25Scores tokenize documents query).getD i 0)
      ∧ idxs.Pairwise (beatsAt (bm25QueryScores bm25Scores tokenize documents query))
      ∧ idxs.length = min top_k ((List.range documents.length).filter
            (fun i => decide
              (0 < (bm25QueryScores bm25Scores tokenize documents query).getD i 0))).length
      ∧ (∀ j, j < documents.length →
          0 < (bm25QueryScores bm25Scores tokenize documents query).getD j 0 → j ∉ idxs →
          ∀ i ∈ idxs, beatsAt (bm25QueryScores bm25Scores tokenize documents query) i j) := by
  have hmapping : (build_index tokenize initialBM25State documents).doc_mapping
      = enumFromN 0 documents := by
    show buildMapping [] 0 documents = enumFromN 0 documents
    simpa using buildMapping_eq_append documents [] 0 (by simp [dictKeys])
  have hlookup : ∀ i, i < documents.length →
      dictGet (build_index tokenize initialBM25State documents).doc_mapping i
        = some (documents.getD i dummyDocInfo) := by
    intro i hi
    rw [hmapping]
    simpa using dictGet_enumFromN documents 0 i hi
  have hsearch : bm25_search bm25Scores tokenize snap
        (build_index tokenize initialBM25State documents) query top_k
      = collectResults (build_index tokenize initialBM25State documents).doc_mapping
          (bm25QueryScores bm25Scores tokenize documents query)
          ((sortDesc (fun i => (bm25QueryScores bm25Scores tokenize documents query).getD i 0)
            (List.range (bm25QueryScores bm25Scores tokenize documents query).length)).take
              top_k) := rfl
  rw [hsearch]
  exact topkSelect_spec _ _ documents top_k hlen hlookup

/-- Counterexample to the claim's source tag: a matching document comes back
from `search` with `source = "bm25"`, which is not the spec's `"lexical"`
(nor in the spec's four-tag set `{vector, lexical, hybrid, reranked}`). -/
theorem bm25_search_source_counterexample :
    bm25_search (fun _ _ => [1]) (fun s => [s]) ⟨SnapCell.absent, SnapCell.absent⟩
        (build_index (fun s => [s]) initialBM25State [⟨"apple pie", [], "d1", "c1"⟩])
        "apple" 20
      = .ok [⟨"apple pie", [], 1, "bm25"⟩]
    ∧ "bm25" ≠ "lexical" :=
  ⟨rfl, by decide⟩

/-- Witness for `bm25_search_spec`: two documents, scores `[1, 0]`, `top_k`
20; the zero-score document is excluded even though `top_k` is not filled,
and the returned result is tagged `"bm25"`. -/
theorem bm25_search_spec_witness :
    ((bm25QueryScores (fun _ _ => [1, 0]) (fun s => [s])
        [⟨"apple pie", [], "d1", "c1"⟩, ⟨"banana", [], "d2", "c2"⟩] "apple").length
      = ([⟨"apple pie", [], "d1", "c1"⟩, ⟨"banana", [], "d2", "c2"⟩] : List DocInfo).length)
    ∧ (∃ idxs : List ℕ,
        bm25_search (fun _ _ => [1, 0]) (fun s => [s]) ⟨SnapCell.absent, SnapCell.absent⟩
            (build_index (fun s => [s]) initialBM25State
              [⟨"apple pie", [], "d1", "c1"⟩, ⟨"banana", [], "d2", "c2"⟩])
            "apple" 20
          = .ok (idxs.map (fun i =>
              ⟨(([⟨"apple pie", [], "d1", "c1"⟩, ⟨"banana", [], "d2", "c2"⟩] : List DocInfo).getD
                  i dummyDocInfo).content,
               (([⟨"apple pie", [], "d1", "c1"⟩, ⟨"banana", [], "d2", "c2"⟩] : List DocInfo).getD
                  i dummyDocInfo).metadata,
               (bm25QueryScores (fun _ _ => [1, 0]) (fun s => [s])
                  [⟨"apple pie", [], "d1", "c1"⟩, ⟨"banana", [], "d2", "c2"⟩] "apple").getD i 0,
               "bm25"⟩))
        ∧ (∀ i ∈ idxs, i < ([⟨"apple pie", [], "d1", "c1"⟩, ⟨"banana", [], "d2", "c2"⟩] : List DocInfo).length
            ∧ 0 < (bm25QueryScores (fun _ _ => [1, 0]) (fun s => [s])
                [⟨"apple pie", [], "d1", "c1"⟩, ⟨"banana", [], "d2", "c2"⟩] "apple").getD i 0)
        ∧ idxs.Pairwise (beatsAt (bm25QueryScores (fun _ _ => [1, 0]) (fun s => [s])
            [⟨"apple pie", [], "d1", "c1"⟩, ⟨"banana", [], "d2", "c2"⟩] "apple"))
        ∧ idxs.length = min 20 ((List.range
              ([⟨"apple pie", [], "d1", "c1"⟩, ⟨"banana", [], "d2", "c2"⟩] : List DocInfo).length).filter
              (fun i => decide (0 < (bm25QueryScores (fun _ _ => [1, 0]) (fun s => [s])
                [⟨"apple pie", [], "d1", "c1"⟩, ⟨"banana", [], "d2", "c2"⟩] "apple").getD i 0))).length
        ∧ (∀ j, j < ([⟨"apple pie", [], "d1", "c1"⟩, ⟨"banana", [], "d2", "c2"⟩] : List DocInfo).length →
            0 < (bm25QueryScores (fun _ _ => [1, 0]) (fun s => [s])
              [⟨"apple pie", [], "d1", "c1"⟩, ⟨"banana", [], "d2", "c2"⟩] "apple").getD j 0 →
            j ∉ idxs →
            ∀ i ∈ idxs, beatsAt (bm25QueryScores (fun _ _ => [1, 0]) (fun s => [s])
              [⟨"apple pie", [], "d1", "c1"⟩, ⟨"banana", [], "d2", "c2"⟩] "apple") i j))
    ∧ bm25_search (fun _ _ => [1, 0]) (fun s => [s]) ⟨SnapCell.absent, SnapCell.absent⟩
          (build_index (fun s => [s]) initialBM25State
            [⟨"apple pie", [], "d1", "c1"⟩, ⟨"banana", [], "d2", "c2"⟩])
          "apple" 20
        = .ok [⟨"apple pie", [], 1, "bm25"⟩] :=
  ⟨rfl,
   bm25_search_spec (fun _ _ => [1, 0]) (fun s => [s]) ⟨SnapCell.absent, SnapCell.absent⟩
     [⟨"apple pie", [], "d1", "c1"⟩, ⟨"banana", [], "d2", "c2"⟩] "apple" 20 rfl,
   rfl⟩

/-- C7: the fully corrupt snapshot is indeed treated as "no index" (search
returns `ok []`), but the partial snapshot the claim also covers — index
blob decodes, document-mapping blob corrupt — leaves the lazily loaded
index in place with an empty mapping, and a query matching a document then
raises a `KeyError` (`doc_mapping[idx]`) instead of returning `[]`: the
`except: pass` contradicts its own "If loading fails, start fresh" comment. -/
theorem bm25_partial_snapshot_bug :
    bm25_search (fun _ _ => [1]) (fun s => [s])
        ⟨SnapCell.corrupt, SnapCell.corrupt⟩ initialBM25State "apple" 20 = .ok []
    ∧ bm25_search (fun _ _ => [1]) (fun s => [s])
        ⟨SnapCell.stored [["apple"]], SnapCell.corrupt⟩ initialBM25State "apple" 20
      = .error () :=
  ⟨rfl, rfl⟩

/-- C8: building over the empty document list produces an index object
(building succeeds), and a subsequent `search` returns the empty list, not
an error: with zero documents the score vector is empty, no index is
selected, and the collect loop returns `ok []`. -/
theorem bm25_empty_corpus (bm25Scores : List (List String) → List String → List ℚ)
    (tokenize : String → List String) (snap : RedisSnap) (query : String) (top_k : ℕ)
    (hlen : (bm25QueryScores bm25Scores tokenize [] query).length = 0) :
    (build_index tokenize initialBM25State []).bm25_index.isSome = true
    ∧ bm25_search bm25Scores tokenize snap (build_index tokenize initialBM25State [])
        query top_k = .ok [] := by
  refine ⟨rfl, ?_⟩
  have h0 : bm25QueryScores bm25Scores tokenize [] query = [] :=
    List.length_eq_zero.mp hlen
  have hsearch : bm25_search bm25Scores tokenize snap
        (build_index tokenize initialBM25State []) query top_k
      = collectResults (build_index tokenize initialBM25State []).doc_mapping
          (bm25QueryScores bm25Scores tokenize [] query)
          ((sortDesc (fun i => (bm25QueryScores bm25Scores tokenize [] query).getD i 0)
            (List.range (bm25QueryScores bm25Scores tokenize [] query).length)).take
              top_k) := rfl
  rw [hsearch, h0]
  simp [collectResults, sortDesc]

/-- Witness for `bm25_empty_corpus` with a concrete scorer that returns an
empty score vector over the empty corpus. -/
theorem bm25_empty_corpus_witness :
    ((bm25QueryScores (fun _ _ => []) (fun _ => []) [] "q").length = 0)
    ∧ ((build_index (fun _ => ([] : List String)) initialBM25State []).bm25_index.isSome = true
      ∧ bm25_search (fun _ _ => []) (fun _ => []) ⟨SnapCell.absent, SnapCell.absent⟩
          (build_index (fun _ => []) initialBM25State []) "q" 5 = .ok []) :=
  ⟨rfl, bm25_empty_corpus (fun _ _ => []) (fun _ => []) ⟨SnapCell.absent, SnapCell.absent⟩
    "q" 5 rfl⟩

theorem cellEntries_mem (store : List (String × CacheCell))
    (e : String × List ℚ × List SearchResult) (he : e ∈ cellEntries store) :
    (e.1, CacheCell.entry e.2.1 e.2.2) ∈ store := by
  induction store with
  | nil => simp [cellEntries] at he
  | cons p rest ih =>
    obtain ⟨key, cell⟩ := p
    cases cell with
    | entry emb res =>
      rw [show cellEntries ((key, CacheCell.entry emb res) :: rest)
          = (key, emb, res) :: cellEntries rest from rfl] at he
      rcases List.mem_cons.mp he with h | h
      · subst h
        exact List.mem_cons_self _ _
      · exact List.mem_cons_of_mem _ (ih h)
    | empty =>
      rw [show cellEntries ((key, CacheCell.empty) :: rest) = cellEntries rest from rfl] at he
      exact List.mem_cons_of_mem _ (ih he)
    | malformed =>
      rw [show cellEntries ((key, CacheCell.malformed) :: rest) = cellEntries rest from rfl] at he
      exact List.mem_cons_of_mem _ (ih he)
    | missingEmbedding =>
      rw [show cellEntries ((key, CacheCell.missingEmbedding) :: rest)
          = cellEntries rest from rfl] at he
      exact List.mem_cons_of_mem _ (ih he)

theorem cacheScan_no_improver (q : List ℚ) (store : List (String × CacheCell)) :
    (∀ p ∈ store, ∃ emb res, p.2 = CacheCell.entry emb res) →
    ∀ (m : ℝ) (b : Option String),
    (∀ s ∈ (cellEntries store).map (fun e => cosineSim q e.2.1), s ≤ m) →
    cacheScan q store m b = .ok (m, b) := by
  induction store with
  | nil =>
    intro hgood m b hle
    simp [cacheScan]
  | cons p rest ih =>
    intro hgood m b hle
    obtain ⟨key, cell⟩ := p
    obtain ⟨emb, res, hcell⟩ := hgood (key, cell) (List.mem_cons_self _ _)
    simp only at hcell
    subst hcell
    have hmap : (cellEntries ((key, CacheCell.entry emb res) :: rest)).map
        (fun e => cosineSim q e.2.1)
        = cosineSim q emb :: (cellEntries rest).map (fun e => cosineSim q e.2.1) := rfl
    rw [hmap] at hle
    have hs : cosineSim q emb ≤ m := hle _ (List.mem_cons_self _ _)
    rw [show cacheScan q ((key, CacheCell.entry emb res) :: rest) m b
        = if m < cosineSim q emb then cacheScan q rest (cosineSim q emb) (some key)
          else cacheScan q rest m b from rfl]
    rw [if_neg (not_lt.mpr hs)]
    exact ih (fun p hp => hgood p (List.mem_cons_of_mem _ hp)) m b
      (fun s hs' => hle s (List.mem_cons_of_mem _ hs'))

theorem cacheScan_improver (q : List ℚ) (store : List (String × CacheCell)) :
    (∀ p ∈ store, ∃ emb res, p.2 = CacheCell.entry emb res) →
    ∀ (M m : ℝ) (b : Option String),
    M ∈ (cellEntries store).map (fun e => cosineSim q e.2.1) →
    (∀ s ∈ (cellEntries store).map (fun e => cosineSim q e.2.1), s ≤ M) →
    m < M →
    ∃ e, (cellEntries store).find? (fun e => decide (cosineSim q e.2.1 = M)) = some e
      ∧ cacheScan q store m b = .ok (M, some e.1) := by
  classical
  induction store with
  | nil =>
    intro hgood M m b hM
    simp [cellEntries] at hM
  | cons p rest ih =>
    intro hgood M m b hM hmax hm
    obtain ⟨key, cell⟩ := p
    obtain ⟨emb, res, hcell⟩ := hgood (key, cell) (List.mem_cons_self _ _)
    simp only at hcell
    subst hcell
    have hrestgood : ∀ p ∈ rest, ∃ emb res, p.2 = CacheCell.entry emb res :=
      fun p hp => hgood p (List.mem_cons_of_mem _ hp)
    have hcons : cellEntries ((key, CacheCell.entry emb res) :: rest)
        = (key, emb, res) :: cellEntries rest := rfl
    have hmap : (cellEntries ((key, CacheCell.entry emb res) :: rest)).map
        (fun e => cosineSim q e.2.1)
        = cosineSim q emb :: (cellEntries rest).map (fun e => cosineSim q e.2.1) := rfl
    rw [hmap] at hM hmax
    have hstep : cacheScan q ((key, CacheCell.entry emb res) :: rest) m b
        = if m < cosineSim q emb then cacheScan q rest (cosineSim q emb) (some key)
          else cacheScan q rest m b := rfl
    rw [hcons, hstep]
    by_cases hs0 : cosineSim q emb = M
    · have hm0 : m < cosineSim q emb := by rw [hs0]; exact hm
      rw [if_pos hm0]
      refine ⟨(key, emb, res), ?_, ?_⟩
      · exact List.find?_cons_of_pos _ (by simp [hs0])
      · rw [cacheScan_no_improver q rest hrestgood (cosineSim q emb) (some key) ?_]
        · rw [hs0]
        · intro s hs'
          have := hmax s (List.mem_cons_of_mem _ hs')
          rw [← hs0] at this
          exact this
    · have hs0lt : cosineSim q emb < M :=
        lt_of_le_of_ne (hmax _ (List.mem_cons_self _ _)) hs0
      have hMrest : M ∈ (cellEntries rest).map (fun e => cosineSim q e.2.1) := by
        rcases List.mem_cons.mp hM with h | h
        · exact absurd h.symm hs0
        · exact h
      have hmaxrest : ∀ s ∈ (cellEntries rest).map (fun e => cosineSim q e.2.1), s ≤ M :=
        fun s hs' => hmax s (List.mem_cons_of_mem _ hs')
      rw [List.find?_cons_of_neg _ (by simp [hs0])]
      by_cases hbr : m < cosineSim q emb
      · rw [if_pos hbr]
        exact ih hrestgood M (cosineSim q emb) (some key) hMrest hmaxrest hs0lt
      · rw [if_neg hbr]
        exact ih hrestgood M m b hMrest hmaxrest hm

/-- C2: on a cache whose stored records are all well-formed (and whose keys
are distinct, as Redis guarantees), `get` with a positive threshold (the
default is 0.95) returns exactly what the spec's maximum-similarity lookup
returns: the stored result set of the (first) entry of maximum cosine
similarity when that maximum is at or above the threshold — inclusive at
the boundary — and a plain `none` miss otherwise, never an error. -/
theorem cache_get_spec (threshold : ℚ) (q : List ℚ) (store : List (String × CacheCell))
    (hth : 0 < threshold)
    (hgood : ∀ p ∈ store, ∃ emb res, p.2 = CacheCell.entry emb res)
    (hnd : (dictKeys store).Nodup) :
    cache_get threshold q store = .ok (specCacheLookup threshold q (cellEntries store)) := by
  classical
  cases store with
  | nil => simp [cache_get, specCacheLookup, cellEntries]
  | cons p rest =>
    obtain ⟨key0, cell0⟩ := p
    obtain ⟨emb0, res0, hcell0⟩ := hgood (key0, cell0) (List.mem_cons_self _ _)
    simp only at hcell0
    subst hcell0
    have hsimsne : (cellEntries ((key0, CacheCell.entry emb0 res0) :: rest)).map
        (fun e => cosineSim q e.2.1) ≠ [] := by
      rw [show cellEntries ((key0, CacheCell.entry emb0 res0) :: rest)
          = (key0, emb0, res0) :: cellEntries rest from rfl]
      simp
    cases hmax : ((cellEntries ((key0, CacheCell.entry emb0 res0) :: rest)).map
        (fun e => cosineSim q e.2.1)).maximum with
    | bot =>
      exact absurd (List.maximum_eq_none.mp hmax) hsimsne
    | coe M =>
      obtain ⟨hMmem, hMub⟩ := List.maximum_eq_coe_iff.mp hmax
      have hunfold : cache_get threshold q ((key0, CacheCell.entry emb0 res0) :: rest)
          = (match cacheScan q ((key0, CacheCell.entry emb0 res0) :: rest) 0 none with
             | .error e => .error e
             | .ok (maxSim, best) =>
               if (threshold : ℝ) ≤ maxSim then
                 match best with
                 | some key =>
                   match dictGet ((key0, CacheCell.entry emb0 res0) :: rest) key with
                   | some (CacheCell.entry _ results) => .ok (some results)
                   | _ => .error ()
                 | none => .ok none
               else .ok none) := rfl
      have hspec : specCacheLookup threshold q
            (cellEntries ((key0, CacheCell.entry emb0 res0) :: rest))
          = if (threshold : ℝ) ≤ M then
              match (cellEntries ((key0, CacheCell.entry emb0 res0) :: rest)).find?
                  (fun e => decide (cosineSim q e.2.1 = M)) with
              | some e => some e.2.2
              | none => none
            else none := by
        rw [specCacheLookup]
        rw [hmax]
      by_cases hM0 : (0 : ℝ) < M
      · obtain ⟨e, hfind, hscan⟩ := cacheScan_improver q
          ((key0, CacheCell.entry emb0 res0) :: rest) hgood M 0 none hMmem hMub hM0
        have hemem := List.mem_of_find?_eq_some hfind
        have hcellmem := cellEntries_mem _ e hemem
        have hget : dictGet ((key0, CacheCell.entry emb0 res0) :: rest) e.1
            = some (CacheCell.entry e.2.1 e.2.2) :=
          dictGet_eq_some_of_mem _ _ _ hnd hcellmem
        have hlhs : cache_get threshold q ((key0, CacheCell.entry emb0 res0) :: rest)
            = if (threshold : ℝ) ≤ M then
                match dictGet ((key0, CacheCell.entry emb0 res0) :: rest) e.1 with
                | some (CacheCell.entry _ results) => Except.ok (some results)
                | _ => Except.error ()
              else Except.ok none := by
          rw [hunfold, hscan]
        rw [hlhs, hspec, hfind]
        by_cases hgate : (threshold : ℝ) ≤ M
        · rw [if_pos hgate, if_pos hgate, hget]
        · rw [if_neg hgate, if_neg hgate]
      · have hMle : M ≤ 0 := not_lt.mp hM0
        have hscan := cacheScan_no_improver q ((key0, CacheCell.entry emb0 res0) :: rest)
          hgood 0 none (fun s hs => le_trans (hMub s hs) hMle)
        have hgate : ¬ ((threshold : ℝ) ≤ (0 : ℝ)) := by
          push_neg
          exact_mod_cast hth
        have hgateM : ¬ ((threshold : ℝ) ≤ M) := by
          intro hc
          exact hgate (le_trans hc hMle)
        have hlhs : cache_get threshold q ((key0, CacheCell.entry emb0 res0) :: rest)
            = if (threshold : ℝ) ≤ (0 : ℝ) then Except.ok none else Except.ok none := by
          rw [hunfold, hscan]
        rw [hlhs, if_neg hgate, hspec, if_neg hgateM]

/-- Witness for `cache_get_spec` at the inclusive boundary: query embedding
`[1,0,0,0,0]`, stored embedding `[19,5,3,2,1]` (norm 20), cosine similarity
exactly `19/20 = 0.95`; with threshold `0.95` the `get` is a hit returning
the stored result set. -/
theorem cache_get_spec_witness :
    (0 : ℚ) < 19/20
    ∧ (∀ p ∈ ([("k", CacheCell.entry [19, 5, 3, 2, 1] [exCachedResult])]
        : List (String × CacheCell)), ∃ emb res, p.2 = CacheCell.entry emb res)
    ∧ (dictKeys ([("k", CacheCell.entry [19, 5, 3, 2, 1] [exCachedResult])]
        : List (String × CacheCell))).Nodup
    ∧ cache_get (19/20) [1, 0, 0, 0, 0]
        [("k", CacheCell.entry [19, 5, 3, 2, 1] [exCachedResult])]
        = .ok (some [exCachedResult]) := by
  have hth : (0 : ℚ) < 19/20 := by norm_num
  have hgood : ∀ p ∈ ([("k", CacheCell.entry [19, 5, 3, 2, 1] [exCachedResult])]
      : List (String × CacheCell)), ∃ emb res, p.2 = CacheCell.entry emb res := by
    intro p hp
    rcases List.mem_singleton.mp hp with rfl
    exact ⟨_, _, rfl⟩
  have hnd : (dictKeys ([("k", CacheCell.entry [19, 5, 3, 2, 1] [exCachedResult])]
      : List (String × CacheCell))).Nodup := by
    simp [dictKeys]
  have happ := cache_get_spec (19/20) [1, 0, 0, 0, 0]
    [("k", CacheCell.entry [19, 5, 3, 2, 1] [exCachedResult])] hth hgood hnd
  refine ⟨hth, hgood, hnd, ?_⟩
  rw [happ]
  have hcos : cosineSim [1, 0, 0, 0, 0] [19, 5, 3, 2, 1] = (19 : ℝ)/20 := by
    have hd : dotQ [1, 0, 0, 0, 0] [19, 5, 3, 2, 1] = 19 := by norm_num [dotQ]
    have hsq : sumSq [1, 0, 0, 0, 0] = 1 := by norm_num [sumSq]
    have hse : sumSq [19, 5, 3, 2, 1] = 400 := by norm_num [sumSq]
    unfold cosineSim normL2
    rw [hd, hsq, hse]
    rw [show (((1 : ℚ)) : ℝ) = 1 by norm_num, show (((400 : ℚ)) : ℝ) = 400 by norm_num,
      show (((19 : ℚ)) : ℝ) = 19 by norm_num]
    rw [Real.sqrt_one, show (400 : ℝ) = 20 ^ 2 by norm_num,
      Real.sqrt_sq (by norm_num : (0 : ℝ) ≤ 20)]
    norm_num
  have h1 : specCacheLookup (19/20) [1, 0, 0, 0, 0]
      (cellEntries [("k", CacheCell.entry [19, 5, 3, 2, 1] [exCachedResult])])
      = if (((19 : ℚ)/20 : ℚ) : ℝ) ≤ cosineSim [1, 0, 0, 0, 0] [19, 5, 3, 2, 1] then
          match List.find? (fun e => decide (cosineSim [1, 0, 0, 0, 0] e.2.1
              = cosineSim [1, 0, 0, 0, 0] [19, 5, 3, 2, 1]))
            [("k", ([19, 5, 3, 2, 1] : List ℚ), [exCachedResult])] with
          | some e => some e.2.2
          | none => none
        else none := rfl
  rw [h1]
  rw [if_pos (by rw [hcos]; push_cast; norm_num)]
  rw [List.find?_cons_of_pos _ (by simp)]

theorem dictGet_append_middle {κ α : Type} [DecidableEq κ] (l₁ l₂ : List (κ × α)) (k : κ)
    (c : α) (key : κ) (h : key ≠ k) :
    dictGet (l₁ ++ (k, c) :: l₂) key = dictGet (l₁ ++ l₂) key := by
  induction l₁ with
  | nil =>
    have hk : k ≠ key := fun hh => h hh.symm
    simp [dictGet, hk]
  | cons p rest ih =>
    obtain ⟨k', v'⟩ := p
    by_cases hk : k' = key
    · simp [dictGet, hk]
    · simp [dictGet, hk, ih]

theorem cacheScan_skip_empty (q : List ℚ) (pre post : List (String × CacheCell)) (k : String) :
    ∀ (m : ℝ) (b : Option String),
    cacheScan q (pre ++ (k, CacheCell.empty) :: post) m b = cacheScan q (pre ++ post) m b := by
  induction pre with
  | nil => intro m b; rfl
  | cons p rest ih =>
    intro m b
    obtain ⟨key, cell⟩ := p
    cases cell with
    | empty => exact ih m b
    | malformed => rfl
    | missingEmbedding => rfl
    | entry emb res =>
      show (if m < cosineSim q emb
          then cacheScan q (rest ++ (k, CacheCell.empty) :: post) (cosineSim q emb) (some key)
          else cacheScan q (rest ++ (k, CacheCell.empty) :: post) m b)
        = (if m < cosineSim q emb
          then cacheScan q (rest ++ post) (cosineSim q emb) (some key)
          else cacheScan q (rest ++ post) m b)
      by_cases hc : m < cosineSim q emb
      · rw [if_pos hc, if_pos hc, ih]
      · rw [if_neg hc, if_neg hc, ih]

theorem cacheScan_error_of_bad (q : List ℚ) (store : List (String × CacheCell)) :
    ∀ (m : ℝ) (b : Option String) (k : String),
    ((k, CacheCell.malformed) ∈ store ∨ (k, CacheCell.missingEmbedding) ∈ store) →
    cacheScan q store m b = .error () := by
  induction store with
  | nil =>
    intro m b k hbad
    rcases hbad with h | h <;> simp at h
  | cons p rest ih =>
    intro m b k hbad
    obtain ⟨key, cell⟩ := p
    cases cell with
    | malformed => rfl
    | missingEmbedding => rfl
    | empty =>
      have hbad' : (k, CacheCell.malformed) ∈ rest ∨ (k, CacheCell.missingEmbedding) ∈ rest := by
        rcases hbad with h | h
        · rcases List.mem_cons.mp h with h1 | h1
          · simp at h1
          · exact Or.inl h1
        · rcases List.mem_cons.mp h with h1 | h1
          · simp at h1
          · exact Or.inr h1
      exact ih m b k hbad'
    | entry emb res =>
      have hbad' : (k, CacheCell.malformed) ∈ rest ∨ (k, CacheCell.missingEmbedding) ∈ rest := by
        rcases hbad with h | h
        · rcases List.mem_cons.mp h with h1 | h1
          · simp at h1
          · exact Or.inl h1
        · rcases List.mem_cons.mp h with h1 | h1
          · simp at h1
          · exact Or.inr h1
      show (if m < cosineSim q emb
          then cacheScan q rest (cosineSim q emb) (some key)
          else cacheScan q rest m b) = .error ()
      by_cases hc : m < cosineSim q emb
      · rw [if_pos hc]
        exact ih _ _ k hbad'
      · rw [if_neg hc]
        exact ih _ _ k hbad'

theorem cacheScan_best_mem (q : List ℚ) (store : List (String × CacheCell)) :
    ∀ (m : ℝ) (b : Option String) (M : ℝ) (key : String),
    cacheScan q store m b = .ok (M, some key) →
    b = some key ∨ ∃ emb res, (key, CacheCell.entry emb res) ∈ store := by
  induction store with
  | nil =>
    intro m b M key h
    simp [cacheScan] at h
    exact Or.inl h.2
  | cons p rest ih =>
    intro m b M key h
    obtain ⟨k0, cell⟩ := p
    cases cell with
    | empty =>
      rcases ih m b M key h with h1 | ⟨emb2, res2, hm⟩
      · exact Or.inl h1
      · exact Or.inr ⟨emb2, res2, List.mem_cons_of_mem _ hm⟩
    | malformed => simp [cacheScan] at h
    | missingEmbedding => simp [cacheScan] at h
    | entry emb res =>
      rw [show cacheScan q ((k0, CacheCell.entry emb res) :: rest) m b
          = if m < cosineSim q emb then cacheScan q rest (cosineSim q emb) (some k0)
            else cacheScan q rest m b from rfl] at h
      by_cases hc : m < cosineSim q emb
      · rw [if_pos hc] at h
        rcases ih _ _ _ _ h with h1 | ⟨emb2, res2, hm⟩
        · injection h1 with h1
          exact Or.inr ⟨emb, res, by rw [← h1]; exact List.mem_cons_self _ _⟩
        · exact Or.inr ⟨emb2, res2, List.mem_cons_of_mem _ hm⟩
      · rw [if_neg hc] at h
        rcases ih _ _ _ _ h with h1 | ⟨emb2, res2, hm⟩
        · exact Or.inl h1
        · exact Or.inr ⟨emb2, res2, List.mem_cons_of_mem _ hm⟩

theorem cache_get_ne_nil (threshold : ℚ) (q : List ℚ) (store : List (String × CacheCell))
    (h : store ≠ []) :
    cache_get threshold q store
      = match cacheScan q store 0 none with
        | .error e => .error e
        | .ok (maxSim, best) =>
          if (threshold : ℝ) ≤ maxSim then
            match best with
            | some key =>
              match dictGet store key with
              | some (CacheCell.entry _ results) => .ok (some results)
              | _ => .error ()
            | none => .ok none
          else .ok none := by
  cases store with
  | nil => exact absurd rfl h
  | cons p rest => rfl

/-- C6 (amended): only a falsy read is skipped — removing an empty cell does
not change `get`'s outcome on a distinct-key store — while a stored record
that fails to decode, or decodes without an `"embedding"` field, aborts the
whole scan with an error instead of being skipped. -/
theorem cache_get_cell_handling :
    (∀ (threshold : ℚ) (q : List ℚ) (pre post : List (String × CacheCell)) (k : String),
      (dictKeys (pre ++ (k, CacheCell.empty) :: post)).Nodup →
      cache_get threshold q (pre ++ (k, CacheCell.empty) :: post)
        = cache_get threshold q (pre ++ post))
    ∧ (∀ (threshold : ℚ) (q : List ℚ) (store : List (String × CacheCell)) (k : String),
        ((k, CacheCell.malformed) ∈ store ∨ (k, CacheCell.missingEmbedding) ∈ store) →
        cache_get threshold q store = .error ()) := by
  classical
  constructor
  · intro threshold q pre post k hnd
    have hscan := cacheScan_skip_empty q pre post k 0 none
    have hL := cache_get_ne_nil threshold q (pre ++ (k, CacheCell.empty) :: post) (by simp)
    by_cases hpp : pre ++ post = []
    · rcases List.append_eq_nil.mp hpp with ⟨rfl, rfl⟩
      simp only [List.nil_append] at hL hscan ⊢
      rw [hL, hscan]
      show (if (threshold : ℝ) ≤ (0 : ℝ) then Except.ok none else Except.ok none)
        = cache_get threshold q []
      rw [ite_self]
      rfl
    · have hR := cache_get_ne_nil threshold q (pre ++ post) hpp
      rw [hL, hR, hscan]
      cases hsc : cacheScan q (pre ++ post) 0 none with
      | error e => rfl
      | ok pr =>
        obtain ⟨M, best⟩ := pr
        cases best with
        | none => rfl
        | some key =>
          have hmem : ∃ emb res, (key, CacheCell.entry emb res) ∈ pre ++ post := by
            rcases cacheScan_best_mem q (pre ++ post) 0 none M key hsc with h1 | h1
            · simp at h1
            · exact h1
          obtain ⟨emb, res, hmem⟩ := hmem
          have hsplitkeys : dictKeys (pre ++ (k, CacheCell.empty) :: post)
              = dictKeys pre ++ k :: dictKeys post := by
            simp [dictKeys]
          rw [hsplitkeys] at hnd
          rcases List.nodup_append.mp hnd with ⟨hnp, hnkp, hdisj⟩
          have hknotpre : k ∉ dictKeys pre := fun hkp =>
            (hdisj hkp (List.mem_cons_self _ _) : False)
          have hknotpost : k ∉ dictKeys post := (List.nodup_cons.mp hnkp).1
          have hkeymem : key ∈ dictKeys pre ++ dictKeys post := by
            have h1 : key ∈ dictKeys (pre ++ post) :=
              List.mem_map.mpr ⟨(key, CacheCell.entry emb res), hmem, rfl⟩
            simpa [dictKeys] using h1
          have hkne : key ≠ k := by
            intro hkk
            subst hkk
            rcases List.mem_append.mp hkeymem with h1 | h1
            · exact hknotpre h1
            · exact hknotpost h1
          show (if (threshold : ℝ) ≤ M then
              match dictGet (pre ++ (k, CacheCell.empty) :: post) key with
              | some (CacheCell.entry _ results) => Except.ok (some results)
              | _ => Except.error ()
            else Except.ok none)
            = (if (threshold : ℝ) ≤ M then
              match dictGet (pre ++ post) key with
              | some (CacheCell.entry _ results) => Except.ok (some results)
              | _ => Except.error ()
            else Except.ok none)
          rw [dictGet_append_middle pre post k CacheCell.empty key hkne]
  · intro threshold q store k hbad
    have hne : store ≠ [] := by
      rcases hbad with h | h <;> exact List.ne_nil_of_mem h
    rw [cache_get_ne_nil threshold q store hne]
    rw [cacheScan_error_of_bad q store 0 none k hbad]

/-- Counterexample to C6 as stated: a store holding a readable entry and an
undecodable record makes `get` raise (the model's `Except.error`), instead
of skipping the bad record and returning the outcome of the readable one. -/
theorem cache_get_malformed_counterexample :
    cache_get (19/20) [1]
        [("good", CacheCell.entry [1] [exCachedResult]), ("bad", CacheCell.malformed)]
      = .error () := by
  rw [cache_get_ne_nil _ _ _ (by simp)]
  rw [cacheScan_error_of_bad [1] _ 0 none "bad" (Or.inl (by simp))]

/-- Witness for `cache_get_cell_handling` at concrete stores: dropping an
empty cell preserves the outcome, and a store containing an undecodable
record errors. -/
theorem cache_get_cell_handling_witness :
    ((dictKeys ([("e", CacheCell.empty), ("g", CacheCell.entry [2] [exCachedResult])]
        : List (String × CacheCell))).Nodup
      ∧ cache_get (19/20) [1] [("e", CacheCell.empty), ("g", CacheCell.entry [2] [exCachedResult])]
          = cache_get (19/20) [1] [("g", CacheCell.entry [2] [exCachedResult])])
    ∧ ((("b", CacheCell.malformed) ∈ ([("b", CacheCell.malformed)] : List (String × CacheCell))
        ∨ ("b", CacheCell.missingEmbedding) ∈ ([("b", CacheCell.malformed)]
            : List (String × CacheCell)))
      ∧ cache_get (19/20) [1] [("b", CacheCell.malformed)] = .error ()) := by
  constructor
  · have hnd : (dictKeys ([("e", CacheCell.empty), ("g", CacheCell.entry [2] [exCachedResult])]
        : List (String × CacheCell))).Nodup := by simp [dictKeys]
    exact ⟨hnd, cache_get_cell_handling.1 (19/20) [1] []
      [("g", CacheCell.entry [2] [exCachedResult])] "e" hnd⟩
  · exact ⟨Or.inl (by simp), cache_get_cell_handling.2 (19/20) [1]
      [("b", CacheCell.malformed)] "b" (Or.inl (by simp))⟩

/-- C9 failing input: the scan has no zero-norm guard, so a cache state with
a stored zero embedding makes the evaluated cosine division have denominator
`‖q‖·‖e‖ = 0`. -/
theorem cache_zero_norm_division_reachable :
    (0 : ℚ) ∈ scanDenomSquares [1] [("k", CacheCell.entry [0, 0] [exCachedResult])]
    ∧ normL2 [0, 0] = 0
    ∧ normL2 [1] * normL2 [0, 0] = 0 := by
  have hz : normL2 [0, 0] = 0 := by
    have hs : sumSq [0, 0] = 0 := by norm_num [sumSq]
    unfold normL2
    rw [hs]
    rw [show (((0 : ℚ)) : ℝ) = 0 by norm_num]
    exact Real.sqrt_zero
  refine ⟨?_, hz, ?_⟩
  · norm_num [scanDenomSquares, sumSq]
  · rw [hz, mul_zero]

/-- C3 (amended: a cached hit whose stored result set is empty is falsy in
`if cached_results:` and does not short-circuit): whenever `get` returns a
non-empty cached result set, `retrieve` with `use_cache` returns exactly
that result set and executes no later stage — no vector query, no lexical
search, no fusion, no rerank, and no cache write. -/
theorem retrieve_cache_hit_short_circuit
    (vecSearch lexSearch : String → ℕ → List SearchResult)
    (predict : List (String × String) → List ℚ)
    (threshold : ℚ) (qEmb : List ℚ) (cacheStore : List (String × CacheCell))
    (alpha : ℚ) (query : String) (top_k rerank_top_k : ℕ)
    (rs : List SearchResult)
    (hhit : cache_get threshold qEmb cacheStore = .ok (some rs)) (hne : rs ≠ []) :
    retrieve vecSearch lexSearch predict threshold qEmb cacheStore alpha query
      top_k rerank_top_k true = .ok (rs, noStageTrace) := by
  cases rs with
  | nil => exact absurd rfl hne
  | cons r rest =>
    show (match cache_get threshold qEmb cacheStore with
      | .error e => .error e
      | .ok cached =>
        match cached with
        | some (r :: rs) => Except.ok (r :: rs, noStageTrace)
        | some [] =>
          Except.ok ((rerank predict query (reciprocal_rank_fusion alpha 60
              (vecSearch query top_k) (lexSearch query top_k)) rerank_top_k).1,
            ⟨true, true, true, true, some (rerank predict query (reciprocal_rank_fusion alpha 60
              (vecSearch query top_k) (lexSearch query top_k)) rerank_top_k).1⟩)
        | none =>
          Except.ok ((rerank predict query (reciprocal_rank_fusion alpha 60
              (vecSearch query top_k) (lexSearch query top_k)) rerank_top_k).1,
            ⟨true, true, true, true, some (rerank predict query (reciprocal_rank_fusion alpha 60
              (vecSearch query top_k) (lexSearch query top_k)) rerank_top_k).1⟩))
      = Except.ok (r :: rest, noStageTrace)
    rw [hhit]

theorem cache_get_hit_34 (rs : List SearchResult) :
    cache_get (19/20) [3, 4] [("k", CacheCell.entry [3, 4] rs)] = .ok (some rs) := by
  have hcos : cosineSim [3, 4] [3, 4] = 1 := by
    have hd : dotQ [3, 4] [3, 4] = 25 := by norm_num [dotQ]
    have hs : sumSq [3, 4] = 25 := by norm_num [sumSq]
    unfold cosineSim normL2
    rw [hd, hs]
    rw [show (((25 : ℚ)) : ℝ) = 25 by norm_num]
    rw [show (25 : ℝ) = 5 ^ 2 by norm_num, Real.sqrt_sq (by norm_num : (0 : ℝ) ≤ 5)]
    norm_num
  have hscan : cacheScan [3, 4] [("k", CacheCell.entry [3, 4] rs)] 0 none
      = .ok (1, some "k") := by
    show (if (0 : ℝ) < cosineSim [3, 4] [3, 4]
        then cacheScan [3, 4] [] (cosineSim [3, 4] [3, 4]) (some "k")
        else cacheScan [3, 4] [] 0 none) = .ok (1, some "k")
    rw [hcos, if_pos (by norm_num : (0 : ℝ) < 1)]
    rfl
  rw [cache_get_ne_nil _ _ _ (by simp), hscan]
  show (if (((19 : ℚ)/20 : ℚ) : ℝ) ≤ (1 : ℝ) then
      match dictGet [("k", CacheCell.entry [3, 4] rs)] "k" with
      | some (CacheCell.entry _ results) => Except.ok (some results)
      | _ => Except.error ()
    else Except.ok none) = .ok (some rs)
  rw [if_pos (by push_cast; norm_num)]
  rfl

theorem retrieve_falls_through_on_empty_hit
    (vecSearch lexSearch : String → ℕ → List SearchResult)
    (predict : List (String × String) → List ℚ)
    (threshold : ℚ) (qEmb : List ℚ) (cacheStore : List (String × CacheCell))
    (alpha : ℚ) (query : String) (top_k rerank_top_k : ℕ)
    (hhit : cache_get threshold qEmb cacheStore = .ok (some [])) :
    retrieve vecSearch lexSearch predict threshold qEmb cacheStore alpha query
        top_k rerank_top_k true
      = .ok ((rerank predict query (reciprocal_rank_fusion alpha 60
            (vecSearch query top_k) (lexSearch query top_k)) rerank_top_k).1,
          ⟨true, true, true, true, some (rerank predict query (reciprocal_rank_fusion alpha 60
            (vecSearch query top_k) (lexSearch query top_k)) rerank_top_k).1⟩) := by
  show (match cache_get threshold qEmb cacheStore with
    | .error e => .error e
    | .ok cached =>
      match cached with
      | some (r :: rs) => Except.ok (r :: rs, noStageTrace)
      | some [] =>
        Except.ok ((rerank predict query (reciprocal_rank_fusion alpha 60
            (vecSearch query top_k) (lexSearch query top_k)) rerank_top_k).1,
          ⟨true, true, true, true, some (rerank predict query (reciprocal_rank_fusion alpha 60
            (vecSearch query top_k) (lexSearch query top_k)) rerank_top_k).1⟩)
      | none =>
        Except.ok ((rerank predict query (reciprocal_rank_fusion alpha 60
            (vecSearch query top_k) (lexSearch query top_k)) rerank_top_k).1,
          ⟨true, true, true, true, some (rerank predict query (reciprocal_rank_fusion alpha 60
            (vecSearch query top_k) (lexSearch query top_k)) rerank_top_k).1⟩))
    = Except.ok ((rerank predict query (reciprocal_rank_fusion alpha 60
          (vecSearch query top_k) (lexSearch query top_k)) rerank_top_k).1,
        ⟨true, true, true, true, some (rerank predict query (reciprocal_rank_fusion alpha 60
          (vecSearch query top_k) (lexSearch query top_k)) rerank_top_k).1⟩)
  rw [hhit]

/-- Counterexample to C3 as stated: a cache hit whose stored result set is
empty.  `get` returns it (`.ok (some [])`), yet `retrieve` does not return
it immediately: `if cached_results:` treats the empty list as falsy, so the
whole pipeline runs (the trace shows every stage executed and a cache
write). -/
theorem retrieve_empty_hit_counterexample :
    cache_get (19/20) [3, 4] [("k", CacheCell.entry [3, 4] [])] = .ok (some [])
    ∧ retrieve (fun _ _ => []) (fun _ _ => []) (fun ps => ps.map (fun _ => 0))
        (19/20) [3, 4] [("k", CacheCell.entry [3, 4] [])] (1/2) "q" 20 5 true
      = .ok ([], ⟨true, true, true, true, some []⟩) := by
  have hhit := cache_get_hit_34 []
  refine ⟨hhit, ?_⟩
  rw [retrieve_falls_through_on_empty_hit (fun _ _ => []) (fun _ _ => [])
    (fun ps => ps.map (fun _ => 0)) (19/20) [3, 4] [("k", CacheCell.entry [3, 4] [])]
    (1/2) "q" 20 5 hhit]
  rfl

/-- Witness for `retrieve_cache_hit_short_circuit` at a concrete store whose
hit is non-empty: the call returns the cached set with no stage executed. -/
theorem retrieve_cache_hit_witness :
    (cache_get (19/20) [3, 4] [("k", CacheCell.entry [3, 4] [exCachedResult])]
        = .ok (some [exCachedResult]))
    ∧ ([exCachedResult] ≠ [])
    ∧ retrieve (fun _ _ => []) (fun _ _ => []) (fun ps => ps.map (fun _ => 0))
        (19/20) [3, 4] [("k", CacheCell.entry [3, 4] [exCachedResult])] (1/2) "q" 20 5 true
      = .ok ([exCachedResult], noStageTrace) :=
  ⟨cache_get_hit_34 [exCachedResult], by simp,
   retrieve_cache_hit_short_circuit (fun _ _ => []) (fun _ _ => [])
     (fun ps => ps.map (fun _ => 0)) (19/20) [3, 4]
     [("k", CacheCell.entry [3, 4] [exCachedResult])] (1/2) "q" 20 5 [exCachedResult]
     (cache_get_hit_34 [exCachedResult]) (by simp)⟩
